import Mathlib

/-!
Shallow embedding of the big-digit numeric engine of arkenidar/math
(src/src/main.c) and proofs about it.

Digit arrays are `List Nat`, most-significant digit first, exactly as the
C `number_t.digits` buffer; machine indices (`size_t`) become `Nat`.  The C
code only subtracts indices where the result is non-negative on the valid
inputs considered here, so Nat truncated subtraction agrees with `size_t`
arithmetic throughout.  Allocation failure and NULL-pointer inputs are not
modelled (allocation always succeeds in the embedding); the C "invalid"
sentinel (length 0 digit buffer) is modelled as an empty digit list.
-/

namespace ArkMath

/-- The `number_t` structure of main.c: a base, a most-significant-first
digit buffer, a sign flag, the count of trailing digits after the radix
point, and the count of trailing digits forming one repeating period.
The C `length` field always equals the digit buffer length and is
represented by `digits.length`. -/
structure Number where
  base : Nat
  digits : List Nat
  isNegative : Bool
  decimalLength : Nat
  repeatingLength : Nat
deriving DecidableEq

/-- Numeric value of a most-significant-first digit array (Horner scheme).
This is the semantics used to state correctness of the digit algorithms. -/
def digitsVal (b : Nat) (ds : List Nat) : Nat :=
  ds.foldl (fun acc d => b * acc + d) 0

/-- Numeric value of a least-significant-first digit array. -/
def valLSB (b : Nat) : List Nat → Nat
  | [] => 0
  | d :: ds => d + b * valLSB b ds

theorem digitsVal_nil (b : Nat) : digitsVal b [] = 0 := rfl

theorem digitsVal_foldl (b : Nat) (ds : List Nat) (acc : Nat) :
    ds.foldl (fun acc d => b * acc + d) acc =
      acc * b ^ ds.length + digitsVal b ds := by
  induction ds generalizing acc with
  | nil => simp [digitsVal]
  | cons d ds ih =>
    simp only [List.foldl_cons, List.length_cons, digitsVal, Nat.mul_zero, Nat.zero_add]
    rw [ih (b * acc + d), ih d]
    ring

theorem digitsVal_cons (b d : Nat) (ds : List Nat) :
    digitsVal b (d :: ds) = d * b ^ ds.length + digitsVal b ds := by
  simpa [digitsVal] using digitsVal_foldl b ds d

theorem digitsVal_append (b : Nat) (xs ys : List Nat) :
    digitsVal b (xs ++ ys) = digitsVal b xs * b ^ ys.length + digitsVal b ys := by
  simpa [digitsVal, List.foldl_append] using digitsVal_foldl b ys (digitsVal b xs)

theorem digitsVal_lt (b : Nat) (ds : List Nat)
    (h : ∀ d ∈ ds, d < b) : digitsVal b ds < b ^ ds.length := by
  induction ds with
  | nil => simp [digitsVal]
  | cons d ds ih =>
    rw [digitsVal_cons]
    have hd : d < b := h d (List.mem_cons_self _ _)
    have hds : digitsVal b ds < b ^ ds.length :=
      ih (fun x hx => h x (List.mem_cons_of_mem _ hx))
    calc d * b ^ ds.length + digitsVal b ds
        < d * b ^ ds.length + b ^ ds.length := by omega
      _ = (d + 1) * b ^ ds.length := by ring
      _ ≤ b * b ^ ds.length := Nat.mul_le_mul_right _ hd
      _ = b ^ (d :: ds).length := by rw [List.length_cons, pow_succ]; ring

theorem digitsVal_replicate_zero (b k : Nat) :
    digitsVal b (List.replicate k 0) = 0 := by
  induction k with
  | zero => rfl
  | succ k ih => rw [List.replicate_succ, digitsVal_cons, ih]; simp

theorem digitsVal_append_replicate_zero (b : Nat) (ds : List Nat) (k : Nat) :
    digitsVal b (ds ++ List.replicate k 0) = digitsVal b ds * b ^ k := by
  rw [digitsVal_append, digitsVal_replicate_zero, List.length_replicate]; omega

theorem valLSB_append (b : Nat) (xs ys : List Nat) :
    valLSB b (xs ++ ys) = valLSB b xs + b ^ xs.length * valLSB b ys := by
  induction xs with
  | nil => simp [valLSB]
  | cons x xs ih =>
    show x + b * valLSB b (xs ++ ys) =
      (x + b * valLSB b xs) + b ^ (x :: xs).length * valLSB b ys
    rw [ih, List.length_cons, pow_succ]
    ring

theorem digitsVal_eq_valLSB_reverse (b : Nat) (ds : List Nat) :
    digitsVal b ds = valLSB b ds.reverse := by
  induction ds with
  | nil => rfl
  | cons d ds ih =>
    rw [digitsVal_cons, List.reverse_cons, valLSB_append, ih]
    simp [valLSB, List.length_reverse]
    ring

theorem digitsVal_all_zero (b : Nat) (ds : List Nat)
    (h : ∀ d ∈ ds, d = 0) : digitsVal b ds = 0 := by
  induction ds with
  | nil => rfl
  | cons d ds ih =>
    rw [digitsVal_cons, h d (List.mem_cons_self _ _),
      ih (fun x hx => h x (List.mem_cons_of_mem _ hx))]
    simp

/-! ## The canonicalizer: `normalize_number`

Faithful rendering of `normalize_number` (main.c lines 1514-1611).  The C
function mutates its argument in place; the embedding returns the new value.
The two index-scan `while` loops are rendered by the helper
`countLeadingZeros`, which computes exactly the number of steps each loop
takes. -/

/-- Number of digits scanned by a "skip zeros" while loop before it stops
at the first non-zero entry (or at the end of the list). -/
def countLeadingZeros : List Nat → Nat
  | [] => 0
  | d :: ds => if d = 0 then countLeadingZeros ds + 1 else 0

/-- Step (a) of `normalize_number` (main.c lines 1519-1537): if the
repeating window consists only of zeros, delete it and shrink
`decimal_length`; otherwise leave the number untouched. -/
def collapseRepeating (num : Number) : Number :=
  if 0 < num.repeatingLength ∧
      (num.digits.drop (num.digits.length - num.repeatingLength)).all (· == 0) then
    { num with
      digits := num.digits.take (num.digits.length - num.repeatingLength),
      decimalLength := num.decimalLength - num.repeatingLength,
      repeatingLength := 0 }
  else num

/-- main.c lines 1514-1611.  A NULL / empty input is a no-op.  After the
all-zero repeating window is collapsed, the function scans leading zeros of
the integer part (keeping one digit when the whole integer part is zero),
scans trailing zeros of the fractional part when there is no repeating
window, collapses an all-zero result to canonical zero (clearing the sign),
and otherwise shifts the digit window and recomputes the decimal/repeating
offsets.  In the final repeating-length adjustment the C comparison
`new_length - repeating_length < new_decimal_start` is on `size_t`: when
`repeating_length > new_length` the left side wraps to a huge value and the
comparison is false, hence the extra `≤` guard here. -/
def normalize_number (num : Number) : Number :=
  if num.digits.isEmpty then num else
  let n1 := collapseRepeating num
  let len1 := n1.digits.length
  let decimalPos := len1 - n1.decimalLength
  let fz := countLeadingZeros (n1.digits.take decimalPos)
  let firstNonzero := if fz = decimalPos ∧ 0 < n1.decimalLength then decimalPos - 1 else fz
  let tz := if 0 < n1.decimalLength ∧ n1.repeatingLength = 0 then
      countLeadingZeros (n1.digits.drop decimalPos).reverse
    else 0
  let lastNonzero := if 0 < n1.decimalLength ∧ n1.repeatingLength = 0 ∧ tz = n1.decimalLength then
      decimalPos - 1
    else len1 - 1 - tz
  let decLen2 := if 0 < n1.decimalLength ∧ n1.repeatingLength = 0 ∧ tz = n1.decimalLength then 0
    else n1.decimalLength
  let newLength := lastNonzero + 1 - firstNonzero
  if newLength = 0 ∨ (newLength = 1 ∧ n1.digits.getD firstNonzero 0 = 0) then
    { num with digits := [0], decimalLength := 0, repeatingLength := 0, isNegative := false }
  else
    let newDecimalStart := if firstNonzero < decimalPos then decimalPos - firstNonzero else 0
    { num with
      digits := (n1.digits.drop firstNonzero).take newLength,
      decimalLength := if 0 < decLen2 then newLength - newDecimalStart else decLen2,
      repeatingLength :=
        if 0 < n1.repeatingLength then
          if n1.repeatingLength ≤ newLength ∧ newLength - n1.repeatingLength < newDecimalStart
          then 0 else n1.repeatingLength
        else n1.repeatingLength }

/-! ### Facts about the zero-scanning loops -/

theorem clz_le_length (ds : List Nat) : countLeadingZeros ds ≤ ds.length := by
  induction ds with
  | nil => simp [countLeadingZeros]
  | cons d ds ih =>
    by_cases h : d = 0 <;> simp [countLeadingZeros, h] <;> omega

theorem clz_cons_zero (ds : List Nat) :
    countLeadingZeros (0 :: ds) = countLeadingZeros ds + 1 := by
  simp [countLeadingZeros]

theorem clz_eq_length (ds : List Nat) (h : ∀ d ∈ ds, d = 0) :
    countLeadingZeros ds = ds.length := by
  induction ds with
  | nil => rfl
  | cons d ds ih =>
    have hd : d = 0 := h d (List.mem_cons_self _ _)
    simp [countLeadingZeros, hd, ih (fun x hx => h x (List.mem_cons_of_mem _ hx))]

theorem all_zero_of_clz_eq_length (ds : List Nat)
    (h : countLeadingZeros ds = ds.length) : ∀ d ∈ ds, d = 0 := by
  induction ds with
  | nil => simp
  | cons d ds ih =>
    by_cases hd : d = 0
    · subst hd
      simp only [clz_cons_zero, List.length_cons, Nat.add_right_cancel_iff] at h
      intro x hx
      rcases List.mem_cons.mp hx with h1 | h1
      · exact h1
      · exact ih h x h1
    · simp [countLeadingZeros, hd] at h

theorem headD_drop_eq_getD (ds : List Nat) (k : Nat) :
    (ds.drop k).headD 0 = ds.getD k 0 := by
  induction ds generalizing k with
  | nil => simp
  | cons d ds ih =>
    cases k with
    | zero => rfl
    | succ k => simpa using ih k

theorem getD_clz_ne_zero (ds : List Nat)
    (h : countLeadingZeros ds < ds.length) : ds.getD (countLeadingZeros ds) 0 ≠ 0 := by
  induction ds with
  | nil => simp at h
  | cons d ds ih =>
    by_cases hd : d = 0
    · subst hd
      simp only [clz_cons_zero, List.length_cons] at h ⊢
      simpa using ih (by omega)
    · simp [countLeadingZeros, hd]

theorem take_clz_zero (ds : List Nat) :
    ∀ d ∈ ds.take (countLeadingZeros ds), d = 0 := by
  induction ds with
  | nil => simp
  | cons d ds ih =>
    by_cases hd : d = 0
    · subst hd
      simp only [clz_cons_zero, List.take_succ_cons]
      intro x hx
      rcases List.mem_cons.mp hx with h1 | h1
      · exact h1
      · exact ih x h1
    · simp [countLeadingZeros, hd]

theorem clz_eq_zero_of_headD (ds : List Nat) (h : ds.headD 0 ≠ 0) :
    countLeadingZeros ds = 0 := by
  cases ds with
  | nil => rfl
  | cons d ds => simp only [List.headD_cons] at h; simp [countLeadingZeros, h]

/-! ### Case-by-case characterization of `normalize_number`

The lemmas below compute `normalize_number` in closed form on each class of
well-formed inputs: integer-only numbers, terminating fractions (with and
without an all-zero fractional part), and numbers with a non-degenerate
repeating window.  They are the workhorses behind the idempotence, zero-form
and repeating-block theorems and behind the value-preservation facts needed
for the arithmetic proofs. -/

theorem collapseRepeating_of_rl_zero (n : Number) (h : n.repeatingLength = 0) :
    collapseRepeating n = n := by
  simp [collapseRepeating, h]

theorem normalize_int_nonzero (n : Number) (hne : n.digits ≠ [])
    (hdl : n.decimalLength = 0) (hrl : n.repeatingLength = 0)
    (hfz : countLeadingZeros n.digits < n.digits.length) :
    normalize_number n =
      ⟨n.base, n.digits.drop (countLeadingZeros n.digits), n.isNegative, 0, 0⟩ := by
  have hlen : 0 < n.digits.length := List.length_pos.mpr hne
  have hemp : n.digits.isEmpty = false := by simp [List.isEmpty_iff, hne]
  have hget := getD_clz_ne_zero n.digits hfz
  simp only [normalize_number, collapseRepeating_of_rl_zero n hrl, hdl, hrl,
    Nat.sub_zero, List.take_length, hemp, lt_self_iff_false, false_and,
    and_false, if_false, Bool.false_eq_true, ite_false]
  have h1 : n.digits.length - 1 + 1 = n.digits.length := by omega
  rw [h1]
  rw [if_neg (by
    push_neg
    refine ⟨by omega, fun h2 => hget⟩)]
  have h2 : (n.digits.drop (countLeadingZeros n.digits)).length
      = n.digits.length - countLeadingZeros n.digits := List.length_drop _ _
  congr 1
  rw [← h2, List.take_length]

theorem getD_all_zero (ds : List Nat) (h : ∀ d ∈ ds, d = 0) (i : Nat) :
    ds.getD i 0 = 0 := by
  induction ds generalizing i with
  | nil => simp
  | cons d ds ih =>
    cases i with
    | zero => simpa using h d (List.mem_cons_self _ _)
    | succ i => simpa using ih (fun x hx => h x (List.mem_cons_of_mem _ hx)) i

theorem getD_take (ds : List Nat) (k i : Nat) (h : i < k) :
    (ds.take k).getD i 0 = ds.getD i 0 := by
  induction ds generalizing k i with
  | nil => simp
  | cons d ds ih =>
    cases k with
    | zero => omega
    | succ k =>
      cases i with
      | zero => rfl
      | succ i => simpa using ih k i (by omega)

theorem normalize_int_allzero (n : Number) (hne : n.digits ≠ [])
    (hdl : n.decimalLength = 0) (hrl : n.repeatingLength = 0)
    (hfz : countLeadingZeros n.digits = n.digits.length) :
    normalize_number n = ⟨n.base, [0], false, 0, 0⟩ := by
  have hlen : 0 < n.digits.length := List.length_pos.mpr hne
  have hemp : n.digits.isEmpty = false := by simp [List.isEmpty_iff, hne]
  simp only [normalize_number, collapseRepeating_of_rl_zero n hrl, hdl, hrl,
    Nat.sub_zero, List.take_length, hemp, lt_self_iff_false, false_and,
    and_false, if_false, Bool.false_eq_true, ite_false, hfz]
  rw [if_pos (Or.inl (by omega))]

theorem normalize_frac_allzero_zero (n : Number)
    (hrl : n.repeatingLength = 0) (hdl0 : 0 < n.decimalLength)
    (hdlen : n.decimalLength < n.digits.length)
    (hfz : countLeadingZeros (n.digits.take (n.digits.length - n.decimalLength))
        = n.digits.length - n.decimalLength)
    (htz : countLeadingZeros (n.digits.drop (n.digits.length - n.decimalLength)).reverse
        = n.decimalLength) :
    normalize_number n = ⟨n.base, [0], false, 0, 0⟩ := by
  have hlen : 0 < n.digits.length := by omega
  have hemp : n.digits.isEmpty = false := by
    simp [List.isEmpty_iff]
    intro h; rw [h] at hlen; simp at hlen
  have hdp : 0 < n.digits.length - n.decimalLength := by omega
  have hd0 : n.digits.getD (n.digits.length - n.decimalLength - 1) 0 = 0 := by
    have hz := all_zero_of_clz_eq_length _ (by
      rw [hfz, List.length_take]; omega)
    rw [← getD_take n.digits (n.digits.length - n.decimalLength) _ (by omega)]
    exact getD_all_zero _ hz _
  simp only [normalize_number, collapseRepeating_of_rl_zero n hrl, hrl, hemp,
    Bool.false_eq_true, ite_false, hfz, htz, hdl0, and_true, true_and, if_pos rfl,
    lt_self_iff_false, false_and, and_false, if_false, if_true, ite_true, hd0,
    and_self]
  rw [if_pos (Or.inr (by omega))]

theorem normalize_frac_allzero_int (n : Number)
    (hrl : n.repeatingLength = 0) (hdl0 : 0 < n.decimalLength)
    (hdlen : n.decimalLength < n.digits.length)
    (hfz : countLeadingZeros (n.digits.take (n.digits.length - n.decimalLength))
        < n.digits.length - n.decimalLength)
    (htz : countLeadingZeros (n.digits.drop (n.digits.length - n.decimalLength)).reverse
        = n.decimalLength) :
    normalize_number n =
      ⟨n.base,
       (n.digits.drop (countLeadingZeros (n.digits.take (n.digits.length - n.decimalLength)))).take
         (n.digits.length - n.decimalLength
           - countLeadingZeros (n.digits.take (n.digits.length - n.decimalLength))),
       n.isNegative, 0, 0⟩ := by
  have hlen : 0 < n.digits.length := by omega
  have hemp : n.digits.isEmpty = false := by
    cases h : n.digits with
    | nil => rw [h] at hlen; simp at hlen
    | cons a l => rfl
  have hfzne : ¬(countLeadingZeros (n.digits.take (n.digits.length - n.decimalLength))
      = n.digits.length - n.decimalLength) := by omega
  have hget : n.digits.getD
      (countLeadingZeros (n.digits.take (n.digits.length - n.decimalLength))) 0 ≠ 0 := by
    rw [← getD_take n.digits (n.digits.length - n.decimalLength) _ (by omega)]
    exact getD_clz_ne_zero _ (by rw [List.length_take]; omega)
  simp only [normalize_number, collapseRepeating_of_rl_zero n hrl, hrl, hemp,
    Bool.false_eq_true, ite_false, htz, hdl0, and_true, true_and, and_false, false_and,
    lt_self_iff_false, if_false, if_true, ite_true, hfzne, and_self, hget]
  have h1 : n.digits.length - n.decimalLength - 1 + 1 = n.digits.length - n.decimalLength := by
    omega
  rw [h1]
  simp only [or_false]
  rw [if_neg (by omega)]

/-- The index of the first digit kept by the leading-zero scan of
`normalize_number` (the C `first_nonzero` variable). -/
def firstKeptIndex (n : Number) : Nat :=
  let decimalPos := n.digits.length - n.decimalLength
  let fz := countLeadingZeros (n.digits.take decimalPos)
  if fz = decimalPos ∧ 0 < n.decimalLength then decimalPos - 1 else fz

theorem firstKeptIndex_le (n : Number) (hdlen : n.decimalLength ≤ n.digits.length) :
    firstKeptIndex n ≤ n.digits.length - n.decimalLength := by
  have h := clz_le_length (n.digits.take (n.digits.length - n.decimalLength))
  rw [List.length_take] at h
  have h2 : countLeadingZeros (n.digits.take (n.digits.length - n.decimalLength))
      ≤ n.digits.length - n.decimalLength := le_trans h inf_le_left
  simp only [firstKeptIndex]
  split_ifs with h1
  · omega
  · omega

theorem firstKeptIndex_lt (n : Number) (hdl0 : 0 < n.decimalLength)
    (hdlen : n.decimalLength < n.digits.length) :
    firstKeptIndex n < n.digits.length - n.decimalLength := by
  have h := clz_le_length (n.digits.take (n.digits.length - n.decimalLength))
  rw [List.length_take] at h
  have h2 : countLeadingZeros (n.digits.take (n.digits.length - n.decimalLength))
      ≤ n.digits.length - n.decimalLength := le_trans h inf_le_left
  simp only [firstKeptIndex]
  split_ifs with h1
  · omega
  · rw [not_and_or] at h1
    rcases h1 with h1 | h1 <;> omega

theorem firstKeptIndex_eq (n : Number) (hdl0 : 0 < n.decimalLength) :
    firstKeptIndex n =
      if countLeadingZeros (n.digits.take (n.digits.length - n.decimalLength))
          = n.digits.length - n.decimalLength
      then n.digits.length - n.decimalLength - 1
      else countLeadingZeros (n.digits.take (n.digits.length - n.decimalLength)) := by
  simp [firstKeptIndex, hdl0]

theorem normalize_frac (n : Number)
    (hrl : n.repeatingLength = 0) (hdl0 : 0 < n.decimalLength)
    (hdlen : n.decimalLength < n.digits.length)
    (htz : countLeadingZeros (n.digits.drop (n.digits.length - n.decimalLength)).reverse
        < n.decimalLength) :
    normalize_number n =
      ⟨n.base,
       (n.digits.drop (firstKeptIndex n)).take
         (n.digits.length
           - countLeadingZeros (n.digits.drop (n.digits.length - n.decimalLength)).reverse
           - firstKeptIndex n),
       n.isNegative,
       n.decimalLength
         - countLeadingZeros (n.digits.drop (n.digits.length - n.decimalLength)).reverse,
       0⟩ := by
  have hlen : 0 < n.digits.length := by omega
  have hemp : n.digits.isEmpty = false := by
    cases h : n.digits with
    | nil => rw [h] at hlen; simp at hlen
    | cons a l => rfl
  have hfki := firstKeptIndex_lt n hdl0 hdlen
  have htzne : ¬(countLeadingZeros (n.digits.drop (n.digits.length - n.decimalLength)).reverse
      = n.decimalLength) := by omega
  simp only [normalize_number, collapseRepeating_of_rl_zero n hrl, hrl, hemp,
    Bool.false_eq_true, ite_false, if_true, ite_true, hdl0, and_true, true_and,
    htzne, and_false, false_and, if_false, and_self]
  rw [← firstKeptIndex_eq n hdl0]
  have h1 : n.digits.length - 1
      - countLeadingZeros (n.digits.drop (n.digits.length - n.decimalLength)).reverse + 1
      = n.digits.length
      - countLeadingZeros (n.digits.drop (n.digits.length - n.decimalLength)).reverse := by
    omega
  rw [h1]
  rw [if_neg (by rintro (h | ⟨h, -⟩) <;> omega)]
  rw [if_pos hfki]
  simp only [lt_self_iff_false, if_false, ite_false]
  congr 1
  omega

theorem normalize_rep (n : Number)
    (hrl0 : 0 < n.repeatingLength) (hrldl : n.repeatingLength ≤ n.decimalLength)
    (hdlen : n.decimalLength < n.digits.length)
    (hw : ¬((n.digits.drop (n.digits.length - n.repeatingLength)).all (· == 0) = true)) :
    normalize_number n =
      ⟨n.base, n.digits.drop (firstKeptIndex n), n.isNegative,
       n.decimalLength, n.repeatingLength⟩ := by
  have hdl0 : 0 < n.decimalLength := by omega
  have hlen : 0 < n.digits.length := by omega
  have hemp : n.digits.isEmpty = false := by
    cases h : n.digits with
    | nil => rw [h] at hlen; simp at hlen
    | cons a l => rfl
  have hfki := firstKeptIndex_lt n hdl0 hdlen
  have hrlne : ¬(n.repeatingLength = 0) := by omega
  have hcol : collapseRepeating n = n := by
    unfold collapseRepeating
    rw [if_neg (fun hc => hw hc.2)]
  simp only [normalize_number, hcol, hemp, Bool.false_eq_true, ite_false,
    if_true, ite_true, hdl0, and_true, true_and, hrlne, and_false, false_and,
    if_false, and_self, hrl0, if_pos]
  rw [← firstKeptIndex_eq n hdl0]
  have h1 : n.digits.length - 1 - 0 + 1 = n.digits.length := by omega
  rw [h1]
  rw [if_neg (by rintro (h | ⟨h, -⟩) <;> omega)]
  rw [if_pos hfki]
  rw [if_neg (by rintro ⟨h2, h3⟩; omega)]
  have hdig : (n.digits.drop (firstKeptIndex n)).length
      = n.digits.length - firstKeptIndex n := List.length_drop _ _
  rw [← hdig, List.take_length]
  congr 1
  omega

/-! ### Well-formed Numbers and the main canonicalizer theorems -/

/-- Field bounds of the data model: the repeating window sits inside the
fractional part and the integer part has at least one digit (the parser
guarantees a digit before the radix point, and the C scans index out of the
buffer without it). -/
def Number.Valid (n : Number) : Prop :=
  n.decimalLength < n.digits.length ∧ n.repeatingLength ≤ n.decimalLength

theorem Number.Valid.digits_ne_nil {n : Number} (h : n.Valid) : n.digits ≠ [] := by
  intro hnil
  have := h.1
  rw [hnil] at this
  simp at this

theorem normalize_zeroNumber (b : Nat) (neg : Bool) :
    normalize_number ⟨b, [0], neg, 0, 0⟩ = ⟨b, [0], false, 0, 0⟩ := rfl

theorem getD_drop (l : List Nat) (k i : Nat) :
    (l.drop k).getD i 0 = l.getD (k + i) 0 := by
  induction l generalizing k with
  | nil => simp
  | cons d ds ih =>
    cases k with
    | zero => simp
    | succ k =>
      show (ds.drop k).getD i 0 = (d :: ds).getD (k + 1 + i) 0
      rw [ih k]
      have : k + 1 + i = (k + i) + 1 := by omega
      rw [this]
      rfl

theorem headD_append_of_ne_nil (xs ys : List Nat) (h : xs ≠ []) :
    (xs ++ ys).headD 0 = xs.headD 0 := by
  cases xs with
  | nil => exact absurd rfl h
  | cons x xs => rfl

theorem headD_reverse_getD (l : List Nat) :
    l.reverse.headD 0 = l.getD (l.length - 1) 0 := by
  induction l with
  | nil => rfl
  | cons d ds ih =>
    cases hds : ds with
    | nil => rfl
    | cons e es =>
      rw [← hds]
      have hne : ds.reverse ≠ [] := by
        rw [hds]; simp
      rw [List.reverse_cons, headD_append_of_ne_nil _ _ hne, ih]
      have h1 : (d :: ds).length - 1 = (ds.length - 1) + 1 := by
        rw [hds]; simp
      rw [h1]
      rfl

theorem headD_take (l : List Nat) (k : Nat) (hk : 0 < k) :
    (l.take k).headD 0 = l.headD 0 := by
  cases l with
  | nil => simp
  | cons d ds =>
    cases k with
    | zero => omega
    | succ k => rfl

theorem collapseRepeating_base (n : Number) :
    (collapseRepeating n).base = n.base := by
  unfold collapseRepeating
  split_ifs <;> rfl

theorem collapseRepeating_isNegative (n : Number) :
    (collapseRepeating n).isNegative = n.isNegative := by
  unfold collapseRepeating
  split_ifs <;> rfl

theorem collapseRepeating_rl (n : Number) :
    (collapseRepeating n).repeatingLength = 0 ∨ collapseRepeating n = n := by
  unfold collapseRepeating
  split_ifs with h
  · exact Or.inl rfl
  · exact Or.inr rfl

theorem collapseRepeating_idem (n : Number) :
    collapseRepeating (collapseRepeating n) = collapseRepeating n := by
  rcases collapseRepeating_rl n with h | h
  · exact collapseRepeating_of_rl_zero _ h
  · rw [h, h]

theorem collapseRepeating_valid {n : Number} (h : n.Valid) :
    (collapseRepeating n).Valid := by
  obtain ⟨h1, h2⟩ := h
  unfold collapseRepeating
  split_ifs with hc
  · constructor
    · simp only [List.length_take]
      omega
    · simp
  · exact ⟨h1, h2⟩

/-- The canonicalizer first collapses an all-zero repeating window and then
processes the result exactly as it would process an input with no such
window; the record fields it carries over (base, sign) are unchanged by the
collapse. -/
theorem normalize_eq_collapse (n : Number) (hne : n.digits ≠ [])
    (hne2 : (collapseRepeating n).digits ≠ []) :
    normalize_number n = normalize_number (collapseRepeating n) := by
  have hemp : n.digits.isEmpty = false := by
    cases h : n.digits with
    | nil => exact absurd h hne
    | cons a l => rfl
  have hemp2 : (collapseRepeating n).digits.isEmpty = false := by
    cases h : (collapseRepeating n).digits with
    | nil => exact absurd h hne2
    | cons a l => rfl
  simp only [normalize_number, hemp, hemp2, Bool.false_eq_true, ite_false,
    collapseRepeating_idem, collapseRepeating_base, collapseRepeating_isNegative]

theorem getD_append_left (xs ys : List Nat) (i : Nat) (h : i < xs.length) :
    (xs ++ ys).getD i 0 = xs.getD i 0 := by
  induction xs generalizing i with
  | nil => simp at h
  | cons x xs ih =>
    cases i with
    | zero => rfl
    | succ i => simpa using ih i (by simpa using h)

theorem getD_append_at (xs : List Nat) (y : Nat) (ys : List Nat) :
    (xs ++ y :: ys).getD xs.length 0 = y := by
  induction xs with
  | nil => rfl
  | cons x xs ih => simpa using ih

theorem getD_reverse (l : List Nat) (i : Nat) (h : i < l.length) :
    l.reverse.getD i 0 = l.getD (l.length - 1 - i) 0 := by
  induction l generalizing i with
  | nil => simp at h
  | cons d ds ih =>
    rw [List.reverse_cons]
    rcases Nat.lt_or_ge i ds.length with hi | hi
    · rw [getD_append_left _ _ _ (by simpa using hi), ih i hi]
      have h1 : (d :: ds).length - 1 - i = (ds.length - 1 - i) + 1 := by
        simp only [List.length_cons]; omega
      rw [h1]
      rfl
    · have hi2 : i = ds.length := by
        simp only [List.length_cons] at h; omega
      subst hi2
      have h3 : (ds.reverse ++ [d]).getD ds.reverse.length 0 = d := getD_append_at _ _ _
      rw [List.length_reverse] at h3
      rw [h3]
      have h4 : (d :: ds).length - 1 - ds.length = 0 := by
        simp only [List.length_cons]; omega
      rw [h4]
      rfl

theorem firstKeptIndex_eq_zero (m : Number)
    (hdlen : m.decimalLength < m.digits.length)
    (hhead : m.digits.headD 0 ≠ 0 ∨
      (m.digits.length - m.decimalLength = 1 ∧ 0 < m.decimalLength)) :
    firstKeptIndex m = 0 := by
  rcases hhead with hh | ⟨hdp, hdl0⟩
  · have hfz : countLeadingZeros (m.digits.take (m.digits.length - m.decimalLength)) = 0 := by
      apply clz_eq_zero_of_headD
      rw [headD_take _ _ (by omega)]
      exact hh
    simp only [firstKeptIndex, hfz]
    rw [if_neg]
    rintro ⟨h1, h2⟩
    omega
  · have h := clz_le_length (m.digits.take (m.digits.length - m.decimalLength))
    have h2 : (m.digits.take (m.digits.length - m.decimalLength)).length
        = m.digits.length - m.decimalLength := by rw [List.length_take]; omega
    rw [h2] at h
    simp only [firstKeptIndex]
    split_ifs with h3
    · omega
    · rw [not_and_or] at h3
      rcases h3 with h3 | h3 <;> omega

/-- Integer-only Numbers with a non-zero leading digit are fixed points of
the canonicalizer. -/
theorem normalize_fixed_int (b : Nat) (ds : List Nat) (neg : Bool)
    (hne : ds ≠ []) (hhead : ds.headD 0 ≠ 0) :
    normalize_number ⟨b, ds, neg, 0, 0⟩ = ⟨b, ds, neg, 0, 0⟩ := by
  have hlen : 0 < ds.length := List.length_pos.mpr hne
  have hfz : countLeadingZeros ds = 0 := clz_eq_zero_of_headD _ hhead
  have h := normalize_int_nonzero ⟨b, ds, neg, 0, 0⟩ hne rfl rfl
    (by show countLeadingZeros ds < ds.length; omega)
  simpa [hfz] using h

/-- Terminating fractions in canonical form (significant leading digit,
non-zero last fractional digit) are fixed points of the canonicalizer. -/
theorem normalize_fixed_frac (b : Nat) (ds : List Nat) (neg : Bool) (dl : Nat)
    (hdl0 : 0 < dl) (hdlen : dl < ds.length)
    (hhead : ds.headD 0 ≠ 0 ∨ ds.length - dl = 1)
    (hlast : ds.getD (ds.length - 1) 0 ≠ 0) :
    normalize_number ⟨b, ds, neg, dl, 0⟩ = ⟨b, ds, neg, dl, 0⟩ := by
  have hdrop : (ds.drop (ds.length - dl)).length = dl := by
    rw [List.length_drop]; omega
  have htz : countLeadingZeros (ds.drop (ds.length - dl)).reverse = 0 := by
    apply clz_eq_zero_of_headD
    rw [headD_reverse_getD, hdrop, getD_drop]
    have h1 : ds.length - dl + (dl - 1) = ds.length - 1 := by omega
    rw [h1]
    exact hlast
  have hfki : firstKeptIndex ⟨b, ds, neg, dl, 0⟩ = 0 :=
    firstKeptIndex_eq_zero _ hdlen (by
      rcases hhead with hh | hh
      · exact Or.inl hh
      · exact Or.inr ⟨hh, hdl0⟩)
  have h := normalize_frac ⟨b, ds, neg, dl, 0⟩ rfl hdl0 hdlen
    (by show countLeadingZeros (ds.drop (ds.length - dl)).reverse < dl; omega)
  rw [h]
  show (⟨b, (ds.drop (firstKeptIndex ⟨b, ds, neg, dl, 0⟩)).take
      (ds.length - countLeadingZeros (ds.drop (ds.length - dl)).reverse
        - firstKeptIndex ⟨b, ds, neg, dl, 0⟩), neg,
      dl - countLeadingZeros (ds.drop (ds.length - dl)).reverse, 0⟩ : Number)
    = ⟨b, ds, neg, dl, 0⟩
  rw [hfki, htz, List.drop_zero, Nat.sub_zero, Nat.sub_zero, Nat.sub_zero,
    List.take_length]

/-- Numbers whose repeating window contains a non-zero digit, with a
significant leading digit, are fixed points of the canonicalizer. -/
theorem normalize_fixed_rep (b : Nat) (ds : List Nat) (neg : Bool) (dl rl : Nat)
    (hrl0 : 0 < rl) (hrldl : rl ≤ dl) (hdlen : dl < ds.length)
    (hw : ¬((ds.drop (ds.length - rl)).all (· == 0) = true))
    (hhead : ds.headD 0 ≠ 0 ∨ ds.length - dl = 1) :
    normalize_number ⟨b, ds, neg, dl, rl⟩ = ⟨b, ds, neg, dl, rl⟩ := by
  have hfki : firstKeptIndex ⟨b, ds, neg, dl, rl⟩ = 0 :=
    firstKeptIndex_eq_zero _ hdlen (by
      rcases hhead with hh | hh
      · exact Or.inl hh
      · exact Or.inr ⟨hh, show 0 < dl by omega⟩)
  have h := normalize_rep ⟨b, ds, neg, dl, rl⟩ hrl0 hrldl hdlen hw
  rw [h]
  show (⟨b, ds.drop (firstKeptIndex ⟨b, ds, neg, dl, rl⟩), neg, dl, rl⟩ : Number)
    = ⟨b, ds, neg, dl, rl⟩
  rw [hfki, List.drop_zero]

theorem normalize_nil (n : Number) (h : n.digits = []) :
    normalize_number n = n := by
  unfold normalize_number
  rw [if_pos]
  rw [h]
  rfl

theorem min_eq_left_of_le {a b : Nat} (h : a ≤ b) : min a b = a := Nat.min_eq_left h

/-- Either the digit kept first by the scan is non-zero, or the scan kept the
single zero digit just before the radix point. -/
theorem fki_head_property (n1 : Number) (hdl0 : 0 < n1.decimalLength)
    (hdlen : n1.decimalLength < n1.digits.length) :
    n1.digits.getD (firstKeptIndex n1) 0 ≠ 0 ∨
      n1.digits.length - n1.decimalLength - firstKeptIndex n1 = 1 := by
  have hlt : (n1.digits.take (n1.digits.length - n1.decimalLength)).length
      = n1.digits.length - n1.decimalLength := by
    rw [List.length_take]
    exact min_eq_left_of_le (by omega)
  rw [firstKeptIndex_eq n1 hdl0]
  by_cases hfz : countLeadingZeros (n1.digits.take (n1.digits.length - n1.decimalLength))
      = n1.digits.length - n1.decimalLength
  · right
    rw [if_pos hfz]
    omega
  · left
    rw [if_neg hfz]
    have hle := clz_le_length (n1.digits.take (n1.digits.length - n1.decimalLength))
    rw [hlt] at hle
    rw [← getD_take n1.digits (n1.digits.length - n1.decimalLength) _ (by omega)]
    exact getD_clz_ne_zero _ (by rw [hlt]; omega)

/-- Idempotence of the canonicalizer on collapse-free well-formed inputs. -/
theorem normalize_idem_cf (n1 : Number) (hv : n1.Valid)
    (hcf : n1.repeatingLength = 0 ∨
      ¬((n1.digits.drop (n1.digits.length - n1.repeatingLength)).all (· == 0) = true)) :
    normalize_number (normalize_number n1) = normalize_number n1 := by
  obtain ⟨hdlen, hrldl⟩ := hv
  have hne : n1.digits ≠ [] := by
    intro h
    rw [h] at hdlen
    simp at hdlen
  by_cases hrl : n1.repeatingLength = 0
  · by_cases hdl : n1.decimalLength = 0
    · -- integer-only input
      have hclz := clz_le_length n1.digits
      rcases Nat.lt_or_ge (countLeadingZeros n1.digits) n1.digits.length with hlt | hge
      · rw [normalize_int_nonzero n1 hne hdl hrl hlt]
        apply normalize_fixed_int
        · intro h
          have := congrArg List.length h
          rw [List.length_drop] at this
          simp at this
          omega
        · rw [headD_drop_eq_getD]
          exact getD_clz_ne_zero _ hlt
      · have heq : countLeadingZeros n1.digits = n1.digits.length := by omega
        rw [normalize_int_allzero n1 hne hdl hrl heq]
        exact normalize_zeroNumber _ _
    · -- terminating fraction input
      have hdl0 : 0 < n1.decimalLength := by omega
      have hdroplen : (n1.digits.drop (n1.digits.length - n1.decimalLength)).length
          = n1.decimalLength := by rw [List.length_drop]; omega
      have htzle : countLeadingZeros
          (n1.digits.drop (n1.digits.length - n1.decimalLength)).reverse
          ≤ n1.decimalLength := by
        have := clz_le_length (n1.digits.drop (n1.digits.length - n1.decimalLength)).reverse
        rw [List.length_reverse, hdroplen] at this
        exact this
      rcases Nat.lt_or_ge (countLeadingZeros
          (n1.digits.drop (n1.digits.length - n1.decimalLength)).reverse)
          n1.decimalLength with htzlt | htzge
      · -- some fractional digit is non-zero: tz < decimalLength
        rw [normalize_frac n1 hrl hdl0 hdlen htzlt]
        set T := countLeadingZeros
          (n1.digits.drop (n1.digits.length - n1.decimalLength)).reverse with hT
        set F := firstKeptIndex n1 with hF
        have hfki : F < n1.digits.length - n1.decimalLength := by
          rw [hF]; exact firstKeptIndex_lt n1 hdl0 hdlen
        have hhp := fki_head_property n1 hdl0 hdlen
        rw [← hF] at hhp
        have hTne : n1.digits.getD (n1.digits.length - T - 1) 0 ≠ 0 := by
          have h1 := getD_clz_ne_zero
            (n1.digits.drop (n1.digits.length - n1.decimalLength)).reverse
            (by rw [List.length_reverse, hdroplen, ← hT]; omega)
          rw [← hT] at h1
          rw [getD_reverse _ _ (by rw [hdroplen]; omega), hdroplen, getD_drop] at h1
          have h2 : n1.digits.length - n1.decimalLength + (n1.decimalLength - 1 - T)
              = n1.digits.length - T - 1 := by omega
          rw [h2] at h1
          exact h1
        have hXlen : ((n1.digits.drop F).take (n1.digits.length - T - F)).length
            = n1.digits.length - T - F := by
          rw [List.length_take, List.length_drop]
          exact min_eq_left_of_le (by omega)
        apply normalize_fixed_frac
        · omega
        · rw [hXlen]; omega
        · rcases hhp with hh | hh
          · left
            rw [headD_take _ _ (by omega), headD_drop_eq_getD]
            exact hh
          · right
            rw [hXlen]
            omega
        · rw [hXlen, getD_take _ _ _ (by omega), getD_drop]
          have h3 : F + (n1.digits.length - T - F - 1) = n1.digits.length - T - 1 := by
            omega
          rw [h3]
          exact hTne
      · -- fractional part entirely zero: tz = decimalLength
        have htz : countLeadingZeros
            (n1.digits.drop (n1.digits.length - n1.decimalLength)).reverse
            = n1.decimalLength := by omega
        have htklen : (n1.digits.take (n1.digits.length - n1.decimalLength)).length
            = n1.digits.length - n1.decimalLength := by
          rw [List.length_take]
          exact min_eq_left_of_le (by omega)
        have hfzle := clz_le_length (n1.digits.take (n1.digits.length - n1.decimalLength))
        rw [htklen] at hfzle
        rcases Nat.lt_or_ge (countLeadingZeros
            (n1.digits.take (n1.digits.length - n1.decimalLength)))
            (n1.digits.length - n1.decimalLength) with hfzlt | hfzge
        · rw [normalize_frac_allzero_int n1 hrl hdl0 hdlen hfzlt htz]
          apply normalize_fixed_int
          · intro h
            have := congrArg List.length h
            rw [List.length_take, List.length_drop] at this
            simp at this
            omega
          · rw [headD_take _ _ (by omega), headD_drop_eq_getD]
            rw [← getD_take n1.digits (n1.digits.length - n1.decimalLength) _ hfzlt]
            exact getD_clz_ne_zero _ (by rw [htklen]; omega)
        · have hfz : countLeadingZeros
              (n1.digits.take (n1.digits.length - n1.decimalLength))
              = n1.digits.length - n1.decimalLength := by omega
          rw [normalize_frac_allzero_zero n1 hrl hdl0 hdlen hfz htz]
          exact normalize_zeroNumber _ _
  · -- non-degenerate repeating window
    have hrl0 : 0 < n1.repeatingLength := by omega
    have hw : ¬((n1.digits.drop (n1.digits.length - n1.repeatingLength)).all (· == 0) = true) := by
      rcases hcf with h | h
      · exact absurd h hrl
      · exact h
    have hdl0 : 0 < n1.decimalLength := by omega
    rw [normalize_rep n1 hrl0 hrldl hdlen hw]
    set F := firstKeptIndex n1 with hF
    have hfki : F < n1.digits.length - n1.decimalLength := by
      rw [hF]; exact firstKeptIndex_lt n1 hdl0 hdlen
    have hhp := fki_head_property n1 hdl0 hdlen
    rw [← hF] at hhp
    have hXlen : (n1.digits.drop F).length = n1.digits.length - F := List.length_drop _ _
    apply normalize_fixed_rep
    · exact hrl0
    · exact hrldl
    · rw [hXlen]; omega
    · rw [hXlen, List.drop_drop]
      have h1 : F + (n1.digits.length - F - n1.repeatingLength)
          = n1.digits.length - n1.repeatingLength := by omega
      rw [h1]
      exact hw
    · rcases hhp with hh | hh
      · left
        rw [headD_drop_eq_getD]
        exact hh
      · right
        rw [hXlen]
        omega

theorem collapseRepeating_spec (n : Number) :
    (collapseRepeating n).repeatingLength = 0 ∨
      (collapseRepeating n = n ∧
        ¬((n.digits.drop (n.digits.length - n.repeatingLength)).all (· == 0) = true)) := by
  unfold collapseRepeating
  split_ifs with h
  · exact Or.inl rfl
  · rw [not_and_or] at h
    rcases h with h | h
    · left
      show n.repeatingLength = 0
      omega
    · exact Or.inr ⟨rfl, h⟩

/-- The canonicalizer always clears the repeating length of an input that
has none. -/
theorem normalize_rl_eq_zero (m : Number) (hv : m.Valid)
    (hrl : m.repeatingLength = 0) :
    (normalize_number m).repeatingLength = 0 := by
  obtain ⟨hdlen, _⟩ := hv
  have hne : m.digits ≠ [] := by
    intro h
    rw [h] at hdlen
    simp at hdlen
  by_cases hdl : m.decimalLength = 0
  · rcases Nat.lt_or_ge (countLeadingZeros m.digits) m.digits.length with hlt | hge
    · rw [normalize_int_nonzero m hne hdl hrl hlt]
    · rw [normalize_int_allzero m hne hdl hrl (by
        have := clz_le_length m.digits; omega)]
  · have hdl0 : 0 < m.decimalLength := by omega
    have hdroplen : (m.digits.drop (m.digits.length - m.decimalLength)).length
        = m.decimalLength := by rw [List.length_drop]; omega
    have htzle : countLeadingZeros
        (m.digits.drop (m.digits.length - m.decimalLength)).reverse
        ≤ m.decimalLength := by
      have := clz_le_length (m.digits.drop (m.digits.length - m.decimalLength)).reverse
      rw [List.length_reverse, hdroplen] at this
      exact this
    rcases Nat.lt_or_ge (countLeadingZeros
        (m.digits.drop (m.digits.length - m.decimalLength)).reverse)
        m.decimalLength with hlt | hge
    · rw [normalize_frac m hrl hdl0 hdlen hlt]
    · have htz : countLeadingZeros
          (m.digits.drop (m.digits.length - m.decimalLength)).reverse
          = m.decimalLength := by omega
      have htklen : (m.digits.take (m.digits.length - m.decimalLength)).length
          = m.digits.length - m.decimalLength := by
        rw [List.length_take]
        exact min_eq_left_of_le (by omega)
      have hfzle := clz_le_length (m.digits.take (m.digits.length - m.decimalLength))
      rw [htklen] at hfzle
      rcases Nat.lt_or_ge (countLeadingZeros
          (m.digits.take (m.digits.length - m.decimalLength)))
          (m.digits.length - m.decimalLength) with hflt | hfge
      · rw [normalize_frac_allzero_int m hrl hdl0 hdlen hflt htz]
      · rw [normalize_frac_allzero_zero m hrl hdl0 hdlen (by omega) htz]

/-- C6.  The canonicalizer is idempotent: a second pass over an already
normalized Number changes nothing.  The hypothesis admits every Number whose
fields satisfy the data-model bounds of the spec (repeating window inside
the fractional part, at least one integer digit), plus the empty no-op
input. -/
theorem claim_C6 (n : Number) (h : n.digits = [] ∨ n.Valid) :
    normalize_number (normalize_number n) = normalize_number n := by
  rcases h with h | hv
  · rw [normalize_nil n h, normalize_nil n h]
  · have hv1 := collapseRepeating_valid hv
    rw [normalize_eq_collapse n hv.digits_ne_nil hv1.digits_ne_nil]
    apply normalize_idem_cf _ hv1
    rcases collapseRepeating_spec n with h1 | ⟨h1, h2⟩
    · exact Or.inl h1
    · rw [h1]
      exact Or.inr h2

/-- Witness for C6 at the concrete input -00.1(20): both hypotheses hold and
normalizing twice equals normalizing once. -/
theorem claim_C6_witness :
    ((⟨10, [0, 0, 1, 2, 0], true, 3, 2⟩ : Number).digits = [] ∨
      (⟨10, [0, 0, 1, 2, 0], true, 3, 2⟩ : Number).Valid) ∧
    normalize_number (normalize_number ⟨10, [0, 0, 1, 2, 0], true, 3, 2⟩) =
      normalize_number ⟨10, [0, 0, 1, 2, 0], true, 3, 2⟩ :=
  ⟨Or.inr (by constructor <;> decide),
   claim_C6 _ (Or.inr (by constructor <;> decide))⟩

/-- C7.  Every well-formed Number whose digits are all zero — whatever its
digit pattern, sign flag, or (all-zero) repeating window — normalizes to the
unique canonical zero: digits `[0]` (length 1), decimalLength 0,
repeatingLength 0, non-negative. -/
theorem claim_C7 (n : Number) (hv : n.Valid) (hz : ∀ d ∈ n.digits, d = 0) :
    normalize_number n = ⟨n.base, [0], false, 0, 0⟩ := by
  have hv1 := collapseRepeating_valid hv
  rw [normalize_eq_collapse n hv.digits_ne_nil hv1.digits_ne_nil]
  have hz1 : ∀ d ∈ (collapseRepeating n).digits, d = 0 := by
    unfold collapseRepeating
    split_ifs with h
    · intro d hd
      exact hz d (List.mem_of_mem_take hd)
    · exact hz
  have hrl1 : (collapseRepeating n).repeatingLength = 0 := by
    rcases collapseRepeating_spec n with h | ⟨h1, h2⟩
    · exact h
    · exfalso
      apply h2
      rw [List.all_eq_true]
      intro d hd
      simp [hz d (List.mem_of_mem_drop hd)]
  have hbase : (collapseRepeating n).base = n.base := collapseRepeating_base n
  have hne1 := hv1.digits_ne_nil
  obtain ⟨hdlen1, _⟩ := hv1
  by_cases hdl1 : (collapseRepeating n).decimalLength = 0
  · rw [normalize_int_allzero _ hne1 hdl1 hrl1 (clz_eq_length _ hz1), hbase]
  · have hdl0 : 0 < (collapseRepeating n).decimalLength := by omega
    have htklen : ((collapseRepeating n).digits.take
        ((collapseRepeating n).digits.length - (collapseRepeating n).decimalLength)).length
        = (collapseRepeating n).digits.length - (collapseRepeating n).decimalLength := by
      rw [List.length_take]
      exact min_eq_left_of_le (by omega)
    have hdroplen : ((collapseRepeating n).digits.drop
        ((collapseRepeating n).digits.length - (collapseRepeating n).decimalLength)).length
        = (collapseRepeating n).decimalLength := by
      rw [List.length_drop]; omega
    rw [normalize_frac_allzero_zero _ hrl1 hdl0 hdlen1
      (by
        rw [clz_eq_length _ (fun d hd => hz1 d (List.mem_of_mem_take hd)), htklen])
      (by
        rw [clz_eq_length _ (fun d hd => hz1 d
          (List.mem_of_mem_drop (List.mem_reverse.mp hd))), List.length_reverse,
          hdroplen]),
      hbase]

/-- Witness for C7 at the concrete all-zero input -00.0(00). -/
theorem claim_C7_witness :
    (⟨10, [0, 0, 0, 0, 0], true, 3, 2⟩ : Number).Valid ∧
    normalize_number ⟨10, [0, 0, 0, 0, 0], true, 3, 2⟩ = ⟨10, [0], false, 0, 0⟩ :=
  ⟨by constructor <;> decide,
   claim_C7 _ (by constructor <;> decide) (by decide)⟩

/-- C8.  The canonicalizer collapses a repeating block exactly when every
digit in it is zero — the collapse step then clears `repeatingLength` and
shrinks `decimalLength` by the removed block length, and the final result
has no repeating window — while a repeating block containing any non-zero
digit survives normalization digit-for-digit (internal and trailing zeros
included), with `repeatingLength` unchanged. -/
theorem claim_C8 (n : Number) (hv : n.Valid) (hrl0 : 0 < n.repeatingLength) :
    (((n.digits.drop (n.digits.length - n.repeatingLength)).all (· == 0) = true) →
        (collapseRepeating n).repeatingLength = 0 ∧
        (collapseRepeating n).decimalLength
          = n.decimalLength - n.repeatingLength ∧
        (normalize_number n).repeatingLength = 0) ∧
    (¬((n.digits.drop (n.digits.length - n.repeatingLength)).all (· == 0) = true) →
        (normalize_number n).repeatingLength = n.repeatingLength ∧
        (normalize_number n).digits.drop
            ((normalize_number n).digits.length - n.repeatingLength)
          = n.digits.drop (n.digits.length - n.repeatingLength)) := by
  obtain ⟨hdlen, hrldl⟩ := hv
  constructor
  · intro hall
    have hcol : collapseRepeating n =
        { n with
          digits := n.digits.take (n.digits.length - n.repeatingLength),
          decimalLength := n.decimalLength - n.repeatingLength,
          repeatingLength := 0 } := by
      unfold collapseRepeating
      rw [if_pos ⟨hrl0, hall⟩]
    refine ⟨by rw [hcol], by rw [hcol], ?_⟩
    have hv1 : (collapseRepeating n).Valid := collapseRepeating_valid ⟨hdlen, hrldl⟩
    rw [normalize_eq_collapse n (Number.Valid.digits_ne_nil ⟨hdlen, hrldl⟩)
      hv1.digits_ne_nil]
    apply normalize_rl_eq_zero _ hv1
    rw [hcol]
  · intro hw
    have hdl0 : 0 < n.decimalLength := by omega
    rw [normalize_rep n hrl0 hrldl hdlen hw]
    have hfki : firstKeptIndex n < n.digits.length - n.decimalLength :=
      firstKeptIndex_lt n hdl0 hdlen
    refine ⟨rfl, ?_⟩
    show (n.digits.drop (firstKeptIndex n)).drop
        ((n.digits.drop (firstKeptIndex n)).length - n.repeatingLength) = _
    rw [List.length_drop, List.drop_drop]
    have h1 : firstKeptIndex n + (n.digits.length - firstKeptIndex n - n.repeatingLength)
        = n.digits.length - n.repeatingLength := by omega
    rw [h1]

/-- Witness for C8 at the concrete input 1.(305): the repeating block holds a
non-zero digit with an internal zero, and normalization preserves it
digit-for-digit. -/
theorem claim_C8_witness :
    (⟨10, [1, 3, 0, 5], false, 3, 3⟩ : Number).Valid ∧
    0 < (⟨10, [1, 3, 0, 5], false, 3, 3⟩ : Number).repeatingLength ∧
    (¬((( ⟨10, [1, 3, 0, 5], false, 3, 3⟩ : Number).digits.drop
          ((⟨10, [1, 3, 0, 5], false, 3, 3⟩ : Number).digits.length
            - (⟨10, [1, 3, 0, 5], false, 3, 3⟩ : Number).repeatingLength)).all (· == 0) = true) →
      (normalize_number ⟨10, [1, 3, 0, 5], false, 3, 3⟩).repeatingLength
          = (⟨10, [1, 3, 0, 5], false, 3, 3⟩ : Number).repeatingLength ∧
        (normalize_number ⟨10, [1, 3, 0, 5], false, 3, 3⟩).digits.drop
            ((normalize_number ⟨10, [1, 3, 0, 5], false, 3, 3⟩).digits.length
              - (⟨10, [1, 3, 0, 5], false, 3, 3⟩ : Number).repeatingLength)
          = (⟨10, [1, 3, 0, 5], false, 3, 3⟩ : Number).digits.drop
              ((⟨10, [1, 3, 0, 5], false, 3, 3⟩ : Number).digits.length
                - (⟨10, [1, 3, 0, 5], false, 3, 3⟩ : Number).repeatingLength)) :=
  ⟨by constructor <;> decide, by decide,
   (claim_C8 _ (by constructor <;> decide) (by decide)).2⟩

/-! ## Magnitude comparison and the sign-aware adder

`compare_int_abs` (main.c 388-409), `compare_abs` (main.c 1223-1269),
`add_same_sign` (main.c 1274-1362), `sub_same_sign_abs` (main.c 1364-1457),
`number_int_sub_abs` (main.c 221-284) and `number_add` (main.c 1460-1511).
The C digit loops walk the buffers least-significant-first with explicit
index guards; here each operand is first expanded to the padded digit
sequence the guards produce, and the loop itself is a recursion over the
zipped least-significant-first lists. -/

/-- Most-significant-first lexicographic digit comparison: the shared
early-return loop shape of `compare_int_abs` and `compare_abs`. -/
def lexCompare : List Nat → List Nat → Int
  | [], [] => 0
  | [], _ :: _ => 0
  | _ :: _, [] => 0
  | a :: as, b :: bs => if a < b then -1 else if b < a then 1 else lexCompare as bs

/-- main.c 388-409: compare two integer-only magnitudes, shorter buffer
first, then digit-by-digit from the most significant end. -/
def compare_int_abs (a b : Number) : Int :=
  if a.digits.length < b.digits.length then -1
  else if b.digits.length < a.digits.length then 1
  else lexCompare a.digits b.digits

/-- main.c 1223-1269: compare absolute values; integer-part lengths first,
then integer digits, then fractional digits with the shorter fraction
conceptually padded with zeros on the right (the `k < decimal_length`
guard). -/
def compare_abs (a b : Number) : Int :=
  let aIntLen := a.digits.length - a.decimalLength
  let bIntLen := b.digits.length - b.decimalLength
  if aIntLen < bIntLen then -1
  else if bIntLen < aIntLen then 1
  else
    let c := lexCompare (a.digits.take aIntLen) (b.digits.take bIntLen)
    if c ≠ 0 then c
    else
      let maxFrac := max a.decimalLength b.decimalLength
      lexCompare
        (a.digits.drop aIntLen ++ List.replicate (maxFrac - a.decimalLength) 0)
        (b.digits.drop bIntLen ++ List.replicate (maxFrac - b.decimalLength) 0)

/-- The padded most-significant-first digit sequence that the digit loops of
`add_same_sign` / `sub_same_sign_abs` actually consume.  The fractional loop
guard `k < decimal_length` indexes the operand from its rightmost digit, so
a shorter fraction is padded just after the radix point (the digits are
right-aligned within the fractional window), while the integer loop pads on
the far left. -/
def padShifted (intLen fracLen : Nat) (n : Number) : List Nat :=
  let nIntLen := n.digits.length - n.decimalLength
  List.replicate (intLen - nIntLen) 0 ++ n.digits.take nIntLen
    ++ List.replicate (fracLen - n.decimalLength) 0 ++ n.digits.drop nIntLen

/-- Least-significant-first schoolbook addition with carry (the fused
fractional+integer loops of `add_same_sign`). -/
def addLSB (base : Nat) : List (Nat × Nat) → Nat → List Nat × Nat
  | [], carry => ([], carry)
  | p :: rest, carry =>
    let s := p.1 + p.2 + carry
    let r := addLSB base rest (s / base)
    (s % base :: r.1, r.2)

/-- Least-significant-first schoolbook subtraction with borrow (the fused
fractional+integer loops of `sub_same_sign_abs` / `number_int_sub_abs`); the
final borrow is returned to the caller, who discards it exactly as the C
does. -/
def subLSB (base : Nat) : List (Nat × Nat) → Nat → List Nat × Nat
  | [], borrow => ([], borrow)
  | p :: rest, borrow =>
    let diff : Int := (p.1 : Int) - (p.2 : Int) - (borrow : Int)
    if diff < 0 then
      let r := subLSB base rest 1
      ((diff + base).toNat :: r.1, r.2)
    else
      let r := subLSB base rest 0
      (diff.toNat :: r.1, r.2)

/-- main.c 1274-1362: same-sign addition.  Digit-wise add over the padded
sequences, a possible extra carry digit on the left, result sign shared with
the operands, result decimalLength the larger of the two, then normalize. -/
def add_same_sign (a b : Number) : Number :=
  if a.base ≠ b.base then ⟨a.base, [], false, 0, 0⟩
  else if a.repeatingLength ≠ 0 ∨ b.repeatingLength ≠ 0 then ⟨a.base, [], false, 0, 0⟩
  else
    let aIntLen := a.digits.length - a.decimalLength
    let bIntLen := b.digits.length - b.decimalLength
    let maxIntLen := max aIntLen bIntLen
    let maxFracLen := max a.decimalLength b.decimalLength
    let aPad := padShifted maxIntLen maxFracLen a
    let bPad := padShifted maxIntLen maxFracLen b
    let r := addLSB a.base (aPad.reverse.zip bPad.reverse) 0
    let ds := if r.2 ≠ 0 then r.2 :: r.1.reverse else r.1.reverse
    normalize_number ⟨a.base, ds, a.isNegative, maxFracLen, 0⟩

/-- main.c 1364-1457: same-sign magnitude subtraction `|a| - |b|`, caller
guarantees `|a| ≥ |b|`; the final borrow is dropped, the requested sign is
installed, then normalize. -/
def sub_same_sign_abs (a b : Number) (negativeResult : Bool) : Number :=
  if a.base ≠ b.base then ⟨a.base, [], false, 0, 0⟩
  else if a.repeatingLength ≠ 0 ∨ b.repeatingLength ≠ 0 then ⟨a.base, [], false, 0, 0⟩
  else
    let aIntLen := a.digits.length - a.decimalLength
    let bIntLen := b.digits.length - b.decimalLength
    let maxIntLen := max aIntLen bIntLen
    let maxFracLen := max a.decimalLength b.decimalLength
    let aPad := padShifted maxIntLen maxFracLen a
    let bPad := padShifted maxIntLen maxFracLen b
    let r := subLSB a.base (aPad.reverse.zip bPad.reverse) 0
    normalize_number ⟨a.base, r.1.reverse, negativeResult, maxFracLen, 0⟩

/-- main.c 221-284: integer-only magnitude subtraction `|a| - |b|` assuming
`|a| ≥ |b|`, zero-extended to the longer operand; the final borrow is
silently discarded.  The `negative_result` flag sets the sign of the result
before normalization. -/
def number_int_sub_abs (a b : Number) (negativeResult : Bool) : Number :=
  if a.base ≠ b.base then ⟨a.base, [], false, 0, 0⟩
  else if a.decimalLength ≠ 0 ∨ b.decimalLength ≠ 0 ∨
      a.repeatingLength ≠ 0 ∨ b.repeatingLength ≠ 0 then ⟨a.base, [], false, 0, 0⟩
  else
    let maxLen := max a.digits.length b.digits.length
    let aPad := List.replicate (maxLen - a.digits.length) 0 ++ a.digits
    let bPad := List.replicate (maxLen - b.digits.length) 0 ++ b.digits
    let r := subLSB a.base (aPad.reverse.zip bPad.reverse) 0
    normalize_number ⟨a.base, r.1.reverse, negativeResult, 0, 0⟩

/-- main.c 1460-1511: the public signed addition entry point. Rejects
mismatched bases, empty operands and repeating operands; same sign goes to
`add_same_sign`; different signs compare magnitudes and subtract the smaller
from the larger, the tie producing a fresh canonical zero. -/
def number_add (a b : Number) : Number :=
  if a.base ≠ b.base then ⟨a.base, [], false, 0, 0⟩
  else if a.digits.length = 0 ∨ b.digits.length = 0 then ⟨a.base, [], false, 0, 0⟩
  else if a.repeatingLength ≠ 0 ∨ b.repeatingLength ≠ 0 then ⟨a.base, [], false, 0, 0⟩
  else if a.isNegative = b.isNegative then add_same_sign a b
  else if compare_abs a b = 0 then ⟨a.base, [0], false, 0, 0⟩
  else if 0 < compare_abs a b then sub_same_sign_abs a b a.isNegative
  else sub_same_sign_abs b a b.isNegative

/-! ### Correctness of the magnitude comparators -/

theorem head_val_ge (b : Nat) (d : Nat) (ds : List Nat) (hd : d ≠ 0) :
    b ^ ds.length ≤ digitsVal b (d :: ds) := by
  rw [digitsVal_cons]
  have : 1 ≤ d := by omega
  nlinarith [Nat.zero_le (digitsVal b ds), Nat.zero_le (b ^ ds.length)]

/-- Trichotomy of the shared lexicographic loop against digit-array values,
for equal-length arrays of in-range digits. -/
theorem lexCompare_spec (b : Nat) (xs ys : List Nat) (hlen : xs.length = ys.length)
    (hx : ∀ d ∈ xs, d < b) (hy : ∀ d ∈ ys, d < b) :
    (lexCompare xs ys = -1 ∧ digitsVal b xs < digitsVal b ys) ∨
    (lexCompare xs ys = 0 ∧ xs = ys) ∨
    (lexCompare xs ys = 1 ∧ digitsVal b ys < digitsVal b xs) := by
  induction xs generalizing ys with
  | nil =>
    cases ys with
    | nil => exact Or.inr (Or.inl ⟨rfl, rfl⟩)
    | cons y ys => simp at hlen
  | cons x xs ih =>
    cases ys with
    | nil => simp at hlen
    | cons y ys =>
      have hlen2 : xs.length = ys.length := by simpa using hlen
      have hxb : x < b := hx x (List.mem_cons_self _ _)
      have hyb : y < b := hy y (List.mem_cons_self _ _)
      have hxs : ∀ d ∈ xs, d < b := fun d hd => hx d (List.mem_cons_of_mem _ hd)
      have hys : ∀ d ∈ ys, d < b := fun d hd => hy d (List.mem_cons_of_mem _ hd)
      rcases Nat.lt_trichotomy x y with hxy | hxy | hxy
      · left
        constructor
        · simp [lexCompare, hxy]
        · rw [digitsVal_cons, digitsVal_cons, hlen2]
          have h1 : digitsVal b xs < b ^ ys.length := by
            rw [← hlen2]; exact digitsVal_lt b xs hxs
          nlinarith [Nat.zero_le (digitsVal b ys)]
      · subst hxy
        rcases ih ys hlen2 hxs hys with ⟨h1, h2⟩ | ⟨h1, h2⟩ | ⟨h1, h2⟩
        · left
          refine ⟨?_, ?_⟩
          · simpa [lexCompare] using h1
          · rw [digitsVal_cons, digitsVal_cons, hlen2]; omega
        · right; left
          refine ⟨by simpa [lexCompare] using h1, by rw [h2]⟩
        · right; right
          refine ⟨?_, ?_⟩
          · simpa [lexCompare] using h1
          · rw [digitsVal_cons, digitsVal_cons, hlen2]; omega
      · right; right
        constructor
        · simp [lexCompare, hxy, Nat.lt_asymm hxy]
        · rw [digitsVal_cons, digitsVal_cons, hlen2]
          have h1 : digitsVal b ys < b ^ ys.length := digitsVal_lt b ys hys
          nlinarith [Nat.zero_le (digitsVal b xs)]

/-- Canonical digit arrays: the single digit zero, or a non-zero leading
digit.  `normalize_number` produces exactly these on integer-only input. -/
def CanonDigits (ds : List Nat) : Prop := ds = [0] ∨ (ds ≠ [] ∧ ds.headD 0 ≠ 0)

theorem CanonDigits.ne_nil {ds : List Nat} (h : CanonDigits ds) : ds ≠ [] := by
  rcases h with h | ⟨h, _⟩
  · rw [h]; simp
  · exact h

theorem val_lt_of_length_lt (b : Nat) (hb : 1 ≤ b) (xs ys : List Nat)
    (hxne : xs ≠ []) (hys : CanonDigits ys) (hx : ∀ d ∈ xs, d < b)
    (hlt : xs.length < ys.length) :
    digitsVal b xs < digitsVal b ys := by
  have hxlen : 1 ≤ xs.length := by
    cases xs with
    | nil => exact absurd rfl hxne
    | cons d ds => simp
  have hylen : 2 ≤ ys.length := by omega
  cases ys with
  | nil => simp at hylen
  | cons y ts =>
    have hy : y ≠ 0 := by
      rcases hys with h | ⟨_, h⟩
      · have : ([0] : List Nat).length = 1 := rfl
        rw [h] at hylen
        simp at hylen
      · simpa using h
    calc digitsVal b xs < b ^ xs.length := digitsVal_lt b xs hx
      _ ≤ b ^ ts.length := Nat.pow_le_pow_right hb (by
        have : (y :: ts).length = ts.length + 1 := rfl
        omega)
      _ ≤ digitsVal b (y :: ts) := head_val_ge b y ts hy

/-- Trichotomy of `compare_int_abs` against magnitudes, for canonical
integer digit arrays. -/
theorem compare_int_abs_spec (bb : Nat) (hb : 1 ≤ bb) (a c : Number)
    (hca : CanonDigits a.digits) (hcc : CanonDigits c.digits)
    (hda : ∀ d ∈ a.digits, d < bb) (hdc : ∀ d ∈ c.digits, d < bb) :
    (compare_int_abs a c = -1 ∧ digitsVal bb a.digits < digitsVal bb c.digits) ∨
    (compare_int_abs a c = 0 ∧ a.digits = c.digits) ∨
    (compare_int_abs a c = 1 ∧ digitsVal bb c.digits < digitsVal bb a.digits) := by
  unfold compare_int_abs
  rcases Nat.lt_trichotomy a.digits.length c.digits.length with h | h | h
  · left
    refine ⟨by rw [if_pos h], ?_⟩
    exact val_lt_of_length_lt bb hb _ _ hca.ne_nil hcc hda h
  · rw [if_neg (by omega), if_neg (by omega)]
    exact lexCompare_spec bb _ _ h hda hdc
  · right; right
    refine ⟨by rw [if_neg (by omega), if_pos h], ?_⟩
    exact val_lt_of_length_lt bb hb _ _ hcc.ne_nil hca hdc h

theorem head_val_ge_of_headD (b : Nat) (ds : List Nat) (hne : ds ≠ [])
    (h : ds.headD 0 ≠ 0) : b ^ (ds.length - 1) ≤ digitsVal b ds := by
  cases ds with
  | nil => exact absurd rfl hne
  | cons d ts =>
    have : (d :: ts).length - 1 = ts.length := by simp
    rw [this]
    exact head_val_ge b d ts (by simpa using h)

/-- Reading a digit array of scale `dl` as `value / base ^ dl`, the
cross-multiplied value splits into the integer-part value at weight
`base ^ (dl + dOther)` plus the zero-padded fractional value at the residual
weight.  This is the bridge between `compare_abs`'s two lexicographic scans
and the magnitudes they order. -/
theorem key_decomp (bb : Nat) (ds : List Nat) (dl dOther maxd : Nat)
    (hdl : dl ≤ ds.length) (h1 : dl ≤ maxd) (h2 : maxd ≤ dl + dOther) :
    digitsVal bb ds * bb ^ dOther
      = digitsVal bb (ds.take (ds.length - dl)) * bb ^ (dl + dOther)
        + digitsVal bb (ds.drop (ds.length - dl) ++ List.replicate (maxd - dl) 0)
            * bb ^ (dl + dOther - maxd) := by
  have hsplit : ds = ds.take (ds.length - dl) ++ ds.drop (ds.length - dl) :=
    (List.take_append_drop _ _).symm
  have hdroplen : (ds.drop (ds.length - dl)).length = dl := by
    rw [List.length_drop]; omega
  conv_lhs => rw [hsplit]
  rw [digitsVal_append, hdroplen, digitsVal_append_replicate_zero]
  have h3 : bb ^ (maxd - dl) * bb ^ (dl + dOther - maxd) = bb ^ dOther := by
    rw [← pow_add]
    congr 1
    omega
  have h4 : bb ^ dl * bb ^ dOther = bb ^ (dl + dOther) := by
    rw [← pow_add]
  calc (digitsVal bb (ds.take (ds.length - dl)) * bb ^ dl
          + digitsVal bb (ds.drop (ds.length - dl))) * bb ^ dOther
      = digitsVal bb (ds.take (ds.length - dl)) * (bb ^ dl * bb ^ dOther)
        + digitsVal bb (ds.drop (ds.length - dl)) * bb ^ dOther := by ring
    _ = _ := by
        rw [h4, ← h3]
        ring

theorem all_lt_pad (bb : Nat) (hb : 1 ≤ bb) (xs : List Nat) (m : Nat)
    (h : ∀ d ∈ xs, d < bb) :
    ∀ d ∈ (xs ++ List.replicate m 0), d < bb := by
  intro d hd
  rcases List.mem_append.mp hd with h1 | h1
  · exact h d h1
  · have := List.eq_of_mem_replicate h1
    omega

/-- A strictly shorter integer part means a strictly smaller magnitude, for
numbers in canonical form. -/
theorem cross_lt_of_intlen_lt (bb : Nat) (hb : 1 ≤ bb) (a c : Number)
    (hta : a.decimalLength < a.digits.length)
    (hda : ∀ d ∈ a.digits, d < bb)
    (htc : c.decimalLength < c.digits.length)
    (hhc : c.digits.headD 0 ≠ 0 ∨ c.digits.length - c.decimalLength = 1)
    (hlt : a.digits.length - a.decimalLength < c.digits.length - c.decimalLength) :
    digitsVal bb a.digits * bb ^ c.decimalLength
      < digitsVal bb c.digits * bb ^ a.decimalLength := by
  have hiC : 2 ≤ c.digits.length - c.decimalLength := by omega
  have hhc2 : c.digits.headD 0 ≠ 0 := by
    rcases hhc with h | h
    · exact h
    · omega
  have htklen : (c.digits.take (c.digits.length - c.decimalLength)).length
      = c.digits.length - c.decimalLength := by
    rw [List.length_take]
    exact min_eq_left_of_le (by omega)
  have htkne : c.digits.take (c.digits.length - c.decimalLength) ≠ [] := by
    intro h
    rw [h] at htklen
    simp at htklen
    omega
  have hIC : bb ^ (c.digits.length - c.decimalLength - 1)
      ≤ digitsVal bb (c.digits.take (c.digits.length - c.decimalLength)) := by
    have := head_val_ge_of_headD bb (c.digits.take (c.digits.length - c.decimalLength))
      htkne (by rw [headD_take _ _ (by omega)]; exact hhc2)
    rw [htklen] at this
    exact this
  have hKc := key_decomp bb c.digits c.decimalLength a.decimalLength
    (max a.decimalLength c.decimalLength) (by omega) (le_max_right _ _) (by omega)
  have h1 := digitsVal_lt bb a.digits hda
  have hposC : 0 < bb ^ c.decimalLength := Nat.pos_pow_of_pos _ (by omega)
  calc digitsVal bb a.digits * bb ^ c.decimalLength
      < bb ^ a.digits.length * bb ^ c.decimalLength :=
        Nat.mul_lt_mul_of_lt_of_le h1 (le_refl _) hposC
    _ = bb ^ (a.digits.length + c.decimalLength) := by rw [pow_add]
    _ ≤ bb ^ ((c.digits.length - c.decimalLength - 1)
          + (c.decimalLength + a.decimalLength)) :=
        Nat.pow_le_pow_right hb (by omega)
    _ = bb ^ (c.digits.length - c.decimalLength - 1)
          * bb ^ (c.decimalLength + a.decimalLength) := by rw [pow_add]
    _ ≤ digitsVal bb (c.digits.take (c.digits.length - c.decimalLength))
          * bb ^ (c.decimalLength + a.decimalLength) :=
        Nat.mul_le_mul_right _ hIC
    _ ≤ digitsVal bb c.digits * bb ^ a.decimalLength := by
        rw [hKc]
        exact Nat.le_add_right _ _


set_option maxHeartbeats 2000000 in
/-- Trichotomy of `compare_abs` against cross-multiplied magnitudes
(`|a| < |c|` iff `valA * base ^ dC < valC * base ^ dA`), for terminating
Numbers in canonical form. -/
theorem compare_abs_spec (bb : Nat) (hb : 1 ≤ bb) (a c : Number)
    (hta : a.decimalLength < a.digits.length)
    (hha : a.digits.headD 0 ≠ 0 ∨ a.digits.length - a.decimalLength = 1)
    (hda : ∀ d ∈ a.digits, d < bb)
    (htc : c.decimalLength < c.digits.length)
    (hhc : c.digits.headD 0 ≠ 0 ∨ c.digits.length - c.decimalLength = 1)
    (hdc : ∀ d ∈ c.digits, d < bb) :
    (compare_abs a c = -1 ∧
      digitsVal bb a.digits * bb ^ c.decimalLength
        < digitsVal bb c.digits * bb ^ a.decimalLength) ∨
    (compare_abs a c = 0 ∧
      digitsVal bb a.digits * bb ^ c.decimalLength
        = digitsVal bb c.digits * bb ^ a.decimalLength) ∨
    (compare_abs a c = 1 ∧
      digitsVal bb c.digits * bb ^ a.decimalLength
        < digitsVal bb a.digits * bb ^ c.decimalLength) := by
  have hKa := key_decomp bb a.digits a.decimalLength c.decimalLength
    (max a.decimalLength c.decimalLength) (by omega) (le_max_left _ _) (by omega)
  have hKc := key_decomp bb c.digits c.decimalLength a.decimalLength
    (max a.decimalLength c.decimalLength) (by omega) (le_max_right _ _) (by omega)
  rw [Nat.add_comm c.decimalLength a.decimalLength] at hKc
  have htkalen : (a.digits.take (a.digits.length - a.decimalLength)).length
      = a.digits.length - a.decimalLength := by
    rw [List.length_take]
    exact min_eq_left_of_le (by omega)
  have htkclen : (c.digits.take (c.digits.length - c.decimalLength)).length
      = c.digits.length - c.decimalLength := by
    rw [List.length_take]
    exact min_eq_left_of_le (by omega)
  have hFAlen : (a.digits.drop (a.digits.length - a.decimalLength)
      ++ List.replicate (max a.decimalLength c.decimalLength - a.decimalLength) 0).length
      = max a.decimalLength c.decimalLength := by
    rw [List.length_append, List.length_drop, List.length_replicate]
    omega
  have hFClen : (c.digits.drop (c.digits.length - c.decimalLength)
      ++ List.replicate (max a.decimalLength c.decimalLength - c.decimalLength) 0).length
      = max a.decimalLength c.decimalLength := by
    rw [List.length_append, List.length_drop, List.length_replicate]
    omega
  have hFAlt : digitsVal bb (a.digits.drop (a.digits.length - a.decimalLength)
        ++ List.replicate (max a.decimalLength c.decimalLength - a.decimalLength) 0)
        * bb ^ (a.decimalLength + c.decimalLength - max a.decimalLength c.decimalLength)
      < bb ^ (a.decimalLength + c.decimalLength) := by
    have h1 := digitsVal_lt bb
      (a.digits.drop (a.digits.length - a.decimalLength)
        ++ List.replicate (max a.decimalLength c.decimalLength - a.decimalLength) 0)
      (all_lt_pad bb hb _ _ (fun d hd => hda d (List.mem_of_mem_drop hd)))
    rw [hFAlen] at h1
    calc _ < bb ^ (max a.decimalLength c.decimalLength)
          * bb ^ (a.decimalLength + c.decimalLength - max a.decimalLength c.decimalLength) :=
          Nat.mul_lt_mul_of_lt_of_le h1 (le_refl _) (Nat.pos_pow_of_pos _ (by omega))
      _ = _ := by rw [← pow_add]; congr 1; omega
  have hFClt : digitsVal bb (c.digits.drop (c.digits.length - c.decimalLength)
        ++ List.replicate (max a.decimalLength c.decimalLength - c.decimalLength) 0)
        * bb ^ (a.decimalLength + c.decimalLength - max a.decimalLength c.decimalLength)
      < bb ^ (a.decimalLength + c.decimalLength) := by
    have h1 := digitsVal_lt bb
      (c.digits.drop (c.digits.length - c.decimalLength)
        ++ List.replicate (max a.decimalLength c.decimalLength - c.decimalLength) 0)
      (all_lt_pad bb hb _ _ (fun d hd => hdc d (List.mem_of_mem_drop hd)))
    rw [hFClen] at h1
    calc _ < bb ^ (max a.decimalLength c.decimalLength)
          * bb ^ (a.decimalLength + c.decimalLength - max a.decimalLength c.decimalLength) :=
          Nat.mul_lt_mul_of_lt_of_le h1 (le_refl _) (Nat.pos_pow_of_pos _ (by omega))
      _ = _ := by rw [← pow_add]; congr 1; omega
  simp only [compare_abs]
  rcases Nat.lt_trichotomy (a.digits.length - a.decimalLength)
      (c.digits.length - c.decimalLength) with hi | hi | hi
  · left
    refine ⟨by rw [if_pos hi], ?_⟩
    exact cross_lt_of_intlen_lt bb hb a c hta hda htc hhc hi
  · rw [if_neg (by omega), if_neg (by omega)]
    rcases lexCompare_spec bb (a.digits.take (a.digits.length - a.decimalLength))
        (c.digits.take (c.digits.length - c.decimalLength))
        (by rw [htkalen, htkclen, hi])
        (fun d hd => hda d (List.mem_of_mem_take hd))
        (fun d hd => hdc d (List.mem_of_mem_take hd)) with ⟨hl, hv⟩ | ⟨hl, hv⟩ | ⟨hl, hv⟩
    · left
      refine ⟨by rw [hl]; rfl, ?_⟩
      rw [hKa, hKc]
      nlinarith [hFAlt, hv, Nat.zero_le (digitsVal bb (c.digits.drop (c.digits.length - c.decimalLength)
        ++ List.replicate (max a.decimalLength c.decimalLength - c.decimalLength) 0)
        * bb ^ (a.decimalLength + c.decimalLength - max a.decimalLength c.decimalLength))]
    · rw [hl]
      have hvv : digitsVal bb (a.digits.take (a.digits.length - a.decimalLength))
          = digitsVal bb (c.digits.take (c.digits.length - c.decimalLength)) := by rw [hv]
      rw [if_neg (fun h => h rfl)]
      rcases lexCompare_spec bb
          (a.digits.drop (a.digits.length - a.decimalLength)
            ++ List.replicate (max a.decimalLength c.decimalLength - a.decimalLength) 0)
          (c.digits.drop (c.digits.length - c.decimalLength)
            ++ List.replicate (max a.decimalLength c.decimalLength - c.decimalLength) 0)
          (by rw [hFAlen, hFClen])
          (all_lt_pad bb hb _ _ (fun d hd => hda d (List.mem_of_mem_drop hd)))
          (all_lt_pad bb hb _ _ (fun d hd => hdc d (List.mem_of_mem_drop hd)))
          with ⟨hl2, hv2⟩ | ⟨hl2, hv2⟩ | ⟨hl2, hv2⟩
      · left
        refine ⟨hl2, ?_⟩
        rw [hKa, hKc, hvv]
        have : 0 < bb ^ (a.decimalLength + c.decimalLength - max a.decimalLength c.decimalLength) :=
          Nat.pos_pow_of_pos _ (by omega)
        nlinarith
      · right; left
        refine ⟨hl2, ?_⟩
        rw [hKa, hKc, hvv, hv2]
      · right; right
        refine ⟨hl2, ?_⟩
        rw [hKa, hKc, hvv]
        have : 0 < bb ^ (a.decimalLength + c.decimalLength - max a.decimalLength c.decimalLength) :=
          Nat.pos_pow_of_pos _ (by omega)
        nlinarith
    · right; right
      refine ⟨by rw [hl]; rfl, ?_⟩
      rw [hKa, hKc]
      nlinarith [hFClt, Nat.zero_le (digitsVal bb (a.digits.drop (a.digits.length - a.decimalLength)
        ++ List.replicate (max a.decimalLength c.decimalLength - a.decimalLength) 0)
        * bb ^ (a.decimalLength + c.decimalLength - max a.decimalLength c.decimalLength))]
  · right; right
    refine ⟨by rw [if_neg (by omega), if_pos hi], ?_⟩
    exact cross_lt_of_intlen_lt bb hb c a htc hdc hta hha hi

/-- Magnitude (absolute value) of a Number as a rational:
`digits / base ^ decimalLength`. -/
def absVal (n : Number) : ℚ :=
  (digitsVal n.base n.digits : ℚ) / (n.base : ℚ) ^ n.decimalLength

theorem absVal_lt_iff (a c : Number) (h : c.base = a.base) (hb : 1 ≤ a.base) :
    (absVal a < absVal c ↔
      digitsVal a.base a.digits * a.base ^ c.decimalLength
        < digitsVal a.base c.digits * a.base ^ a.decimalLength) := by
  unfold absVal
  rw [h]
  have hpos : (0 : ℚ) < (a.base : ℚ) := by
    have : (0 : Nat) < a.base := by omega
    exact_mod_cast this
  rw [div_lt_div_iff (pow_pos hpos _) (pow_pos hpos _)]
  constructor
  · intro h1
    exact_mod_cast h1
  · intro h1
    exact_mod_cast h1

theorem absVal_eq_iff (a c : Number) (h : c.base = a.base) (hb : 1 ≤ a.base) :
    (absVal a = absVal c ↔
      digitsVal a.base a.digits * a.base ^ c.decimalLength
        = digitsVal a.base c.digits * a.base ^ a.decimalLength) := by
  unfold absVal
  rw [h]
  have hpos : (0 : ℚ) < (a.base : ℚ) := by
    have : (0 : Nat) < a.base := by omega
    exact_mod_cast this
  rw [div_eq_div_iff (ne_of_gt (pow_pos hpos _)) (ne_of_gt (pow_pos hpos _))]
  constructor
  · intro h1
    exact_mod_cast h1
  · intro h1
    exact_mod_cast h1

/-- Terminating Numbers in the canonical form maintained by the engine:
repeating-free, integer part non-empty with no insignificant leading zero,
digits in range, base at least 2. -/
def ValidTerm (n : Number) : Prop :=
  n.decimalLength < n.digits.length ∧ n.repeatingLength = 0 ∧
    (n.digits.headD 0 ≠ 0 ∨ n.digits.length - n.decimalLength = 1) ∧
    (∀ d ∈ n.digits, d < n.base) ∧ 2 ≤ n.base

/-- C1.  `number_add` on valid terminating same-base operands follows the
sign-aware contract: equal signs dispatch to `add_same_sign` (which carries
the shared sign); unequal signs compare magnitudes — the comparison
`compare_abs` agreeing with the rational magnitudes — and dispatch to
`sub_same_sign_abs` larger-minus-smaller signed like the larger operand,
with the canonical zero Number on a magnitude tie. -/
theorem claim_C1 (a b : Number) (hbase : b.base = a.base)
    (ha : ValidTerm a) (hb : ValidTerm b) :
    (a.isNegative = b.isNegative → number_add a b = add_same_sign a b) ∧
    (a.isNegative ≠ b.isNegative →
      (absVal a = absVal b → number_add a b = ⟨a.base, [0], false, 0, 0⟩) ∧
      (absVal b < absVal a → number_add a b = sub_same_sign_abs a b a.isNegative) ∧
      (absVal a < absVal b → number_add a b = sub_same_sign_abs b a b.isNegative)) := by
  obtain ⟨hta, hra, hha, hda, hba⟩ := ha
  obtain ⟨htb, hrb, hhb, hdb, hbb⟩ := hb
  have hb1 : 1 ≤ a.base := by omega
  have hdb2 : ∀ d ∈ b.digits, d < a.base := by
    rw [← hbase]; exact hdb
  have hlena : ¬(a.digits.length = 0 ∨ b.digits.length = 0) := by
    push_neg
    omega
  have hrl : ¬(a.repeatingLength ≠ 0 ∨ b.repeatingLength ≠ 0) := by
    push_neg
    exact ⟨hra, hrb⟩
  have hspec := compare_abs_spec a.base hb1 a b hta hha hda htb hhb hdb2
  have hltiff := absVal_lt_iff a b hbase hb1
  have hgtiff := absVal_lt_iff b a (by rw [hbase]) (by omega)
  have heqiff := absVal_eq_iff a b hbase hb1
  rw [hbase] at hgtiff
  constructor
  · intro hsame
    unfold number_add
    rw [if_neg (by rw [hbase]; exact fun h => h rfl), if_neg hlena, if_neg hrl,
      if_pos hsame]
  · intro hdiff
    refine ⟨?_, ?_, ?_⟩
    · intro hv
      unfold number_add
      rw [if_neg (by rw [hbase]; exact fun h => h rfl), if_neg hlena, if_neg hrl,
        if_neg hdiff]
      rcases hspec with ⟨hc, hvv⟩ | ⟨hc, hvv⟩ | ⟨hc, hvv⟩
      · rw [heqiff] at hv
        exfalso
        omega
      · rw [hc, if_pos rfl]
      · rw [heqiff] at hv
        exfalso
        omega
    · intro hv
      unfold number_add
      rw [if_neg (by rw [hbase]; exact fun h => h rfl), if_neg hlena, if_neg hrl,
        if_neg hdiff]
      rcases hspec with ⟨hc, hvv⟩ | ⟨hc, hvv⟩ | ⟨hc, hvv⟩
      · rw [hgtiff] at hv
        exfalso
        omega
      · rw [hgtiff] at hv
        exfalso
        omega
      · rw [hc]
        rw [if_neg (by decide), if_pos (by decide)]
    · intro hv
      unfold number_add
      rw [if_neg (by rw [hbase]; exact fun h => h rfl), if_neg hlena, if_neg hrl,
        if_neg hdiff]
      rcases hspec with ⟨hc, hvv⟩ | ⟨hc, hvv⟩ | ⟨hc, hvv⟩
      · rw [hc]
        rw [if_neg (by decide), if_neg (by decide)]
      · rw [hltiff] at hv
        exfalso
        omega
      · rw [hltiff] at hv
        exfalso
        omega

/-- Witness for C1 at the concrete inputs -12.5 and 3.75: signs differ and
the first magnitude is larger, so the sum is
`sub_same_sign_abs` of the larger minus the smaller with the negative
sign. -/
theorem claim_C1_witness :
    ((⟨10, [3, 7, 5], false, 2, 0⟩ : Number).base
        = (⟨10, [1, 2, 5], true, 1, 0⟩ : Number).base) ∧
    ValidTerm ⟨10, [1, 2, 5], true, 1, 0⟩ ∧
    ValidTerm ⟨10, [3, 7, 5], false, 2, 0⟩ ∧
    ((⟨10, [1, 2, 5], true, 1, 0⟩ : Number).isNegative
        ≠ (⟨10, [3, 7, 5], false, 2, 0⟩ : Number).isNegative →
      (absVal ⟨10, [3, 7, 5], false, 2, 0⟩ < absVal ⟨10, [1, 2, 5], true, 1, 0⟩ →
        number_add ⟨10, [1, 2, 5], true, 1, 0⟩ ⟨10, [3, 7, 5], false, 2, 0⟩
          = sub_same_sign_abs ⟨10, [1, 2, 5], true, 1, 0⟩
              ⟨10, [3, 7, 5], false, 2, 0⟩ true)) :=
  ⟨rfl, ⟨by decide, rfl, by decide, by decide, by decide⟩,
   ⟨by decide, rfl, by decide, by decide, by decide⟩,
   fun hd => fun hv =>
     ((claim_C1 ⟨10, [1, 2, 5], true, 1, 0⟩ ⟨10, [3, 7, 5], false, 2, 0⟩ rfl
       ⟨by decide, rfl, by decide, by decide, by decide⟩
       ⟨by decide, rfl, by decide, by decide, by decide⟩).2 hd).2.1 hv⟩

/-! ## Value semantics of the integer-only engine -/

/-- On integer-only input the canonicalizer only strips leading zeros (or
collapses an all-zero array to `[0]`): base, metadata, digit bounds and the
numeric value in any base are preserved, and the output digit array is
canonical. -/
theorem normalize_int_props (m : Number) (hne : m.digits ≠ [])
    (hdl : m.decimalLength = 0) (hrl : m.repeatingLength = 0) :
    (normalize_number m).base = m.base ∧
    (normalize_number m).decimalLength = 0 ∧
    (normalize_number m).repeatingLength = 0 ∧
    CanonDigits (normalize_number m).digits ∧
    (∀ bb, digitsVal bb (normalize_number m).digits = digitsVal bb m.digits) ∧
    (∀ bb, 0 < bb → (∀ d ∈ m.digits, d < bb) →
      ∀ d ∈ (normalize_number m).digits, d < bb) := by
  have hlen : 0 < m.digits.length := List.length_pos.mpr hne
  rcases Nat.lt_or_ge (countLeadingZeros m.digits) m.digits.length with hlt | hge
  · rw [normalize_int_nonzero m hne hdl hrl hlt]
    refine ⟨rfl, rfl, rfl, ?_, ?_, ?_⟩
    · right
      constructor
      · intro h
        have := congrArg List.length h
        rw [List.length_drop] at this
        simp at this
        omega
      · rw [headD_drop_eq_getD]
        exact getD_clz_ne_zero _ hlt
    · intro bb
      show digitsVal bb (m.digits.drop (countLeadingZeros m.digits)) = _
      conv_rhs => rw [← List.take_append_drop (countLeadingZeros m.digits) m.digits]
      rw [digitsVal_append, digitsVal_all_zero bb _ (take_clz_zero m.digits)]
      simp
    · intro bb _ hd d hdm
      exact hd d (List.mem_of_mem_drop hdm)
  · have heq : countLeadingZeros m.digits = m.digits.length := by
      have := clz_le_length m.digits
      omega
    rw [normalize_int_allzero m hne hdl hrl heq]
    refine ⟨rfl, rfl, rfl, Or.inl rfl, ?_, ?_⟩
    · intro bb
      show digitsVal bb [0] = _
      rw [digitsVal_all_zero bb m.digits (all_zero_of_clz_eq_length _ heq)]
      rfl
    · intro bb hbb _ d hdm
      have : d = 0 := by simpa using hdm
      omega

/-- Borrow-chain invariant for the fused subtraction loop: digit count is
preserved, output digits stay in range, the final borrow is 0 or 1, and the
value identity `out = a - b - borrowIn + borrowOut * base ^ n` holds over
the integers. -/
theorem subLSB_spec (bb : Nat) (hb : 2 ≤ bb) (ps : List (Nat × Nat)) (borrow : Nat)
    (hbor : borrow ≤ 1)
    (hfst : ∀ p ∈ ps, p.1 < bb) (hsnd : ∀ p ∈ ps, p.2 < bb) :
    (subLSB bb ps borrow).1.length = ps.length ∧
    (∀ d ∈ (subLSB bb ps borrow).1, d < bb) ∧
    (subLSB bb ps borrow).2 ≤ 1 ∧
    (valLSB bb (subLSB bb ps borrow).1 : Int)
      = valLSB bb (ps.map Prod.fst) - valLSB bb (ps.map Prod.snd) - borrow
        + (subLSB bb ps borrow).2 * (bb : Int) ^ ps.length := by
  induction ps generalizing borrow with
  | nil =>
    refine ⟨rfl, ?_, hbor, ?_⟩
    · intro d hd
      simp [subLSB] at hd
    · show ((0 : Nat) : Int) = 0 - 0 - borrow + borrow * 1
      omega
  | cons p rest ih =>
    have hp1 : p.1 < bb := hfst p (List.mem_cons_self _ _)
    have hp2 : p.2 < bb := hsnd p (List.mem_cons_self _ _)
    have hfst2 : ∀ q ∈ rest, q.1 < bb := fun q hq => hfst q (List.mem_cons_of_mem _ hq)
    have hsnd2 : ∀ q ∈ rest, q.2 < bb := fun q hq => hsnd q (List.mem_cons_of_mem _ hq)
    show (subLSB bb (p :: rest) borrow).1.length = _ ∧ _
    by_cases hneg : ((p.1 : Int) - (p.2 : Int) - (borrow : Int)) < 0
    · have hrec := ih 1 (le_refl 1) hfst2 hsnd2
      have hstep : subLSB bb (p :: rest) borrow
          = (((p.1 : Int) - (p.2 : Int) - (borrow : Int) + bb).toNat
              :: (subLSB bb rest 1).1, (subLSB bb rest 1).2) := by
        show (if ((p.1 : Int) - (p.2 : Int) - (borrow : Int)) < 0 then _ else _) = _
        rw [if_pos hneg]
      rw [hstep]
      obtain ⟨hl, hd, hbo, hv⟩ := hrec
      have hdig : ((p.1 : Int) - (p.2 : Int) - (borrow : Int) + bb).toNat < bb := by
        omega
      have hcast : (((p.1 : Int) - (p.2 : Int) - (borrow : Int) + bb).toNat : Int)
          = (p.1 : Int) - (p.2 : Int) - (borrow : Int) + bb := by
        omega
      refine ⟨by simpa using hl, ?_, hbo, ?_⟩
      · intro d hdm
        rcases List.mem_cons.mp hdm with h | h
        · omega
        · exact hd d h
      · show ((((p.1 : Int) - p.2 - borrow + bb).toNat + bb * valLSB bb (subLSB bb rest 1).1 : Nat) : Int) = _
        push_cast
        rw [hcast]
        push_cast at hv
        rw [hv]
        show _ = ((p.1 : Int) + bb * valLSB bb (rest.map Prod.fst))
          - ((p.2 : Int) + bb * valLSB bb (rest.map Prod.snd)) - borrow
          + (subLSB bb rest 1).2 * (bb : Int) ^ (rest.length + 1)
        rw [pow_succ]
        ring
    · have hrec := ih 0 (by omega) hfst2 hsnd2
      have hstep : subLSB bb (p :: rest) borrow
          = (((p.1 : Int) - (p.2 : Int) - (borrow : Int)).toNat
              :: (subLSB bb rest 0).1, (subLSB bb rest 0).2) := by
        show (if ((p.1 : Int) - (p.2 : Int) - (borrow : Int)) < 0 then _ else _) = _
        rw [if_neg hneg]
      rw [hstep]
      obtain ⟨hl, hd, hbo, hv⟩ := hrec
      have hdig : ((p.1 : Int) - (p.2 : Int) - (borrow : Int)).toNat < bb := by
        omega
      have hcast : (((p.1 : Int) - (p.2 : Int) - (borrow : Int)).toNat : Int)
          = (p.1 : Int) - (p.2 : Int) - (borrow : Int) := by
        omega
      refine ⟨by simpa using hl, ?_, hbo, ?_⟩
      · intro d hdm
        rcases List.mem_cons.mp hdm with h | h
        · omega
        · exact hd d h
      · show ((((p.1 : Int) - p.2 - borrow).toNat + bb * valLSB bb (subLSB bb rest 0).1 : Nat) : Int) = _
        push_cast
        rw [hcast]
        push_cast at hv
        rw [hv]
        show _ = ((p.1 : Int) + bb * valLSB bb (rest.map Prod.fst))
          - ((p.2 : Int) + bb * valLSB bb (rest.map Prod.snd)) - borrow
          + (subLSB bb rest 0).2 * (bb : Int) ^ (rest.length + 1)
        rw [pow_succ]
        ring

theorem digitsVal_replicate_prepend (bb k : Nat) (ds : List Nat) :
    digitsVal bb (List.replicate k 0 ++ ds) = digitsVal bb ds := by
  rw [digitsVal_append, digitsVal_replicate_zero]
  simp

/-- Full behavioral description of `number_int_sub_abs` on in-range
integer-only operands: the result is a canonical integer Number in the same
base whose value is `|a| - |b|` up to one discarded borrow at weight
`base ^ max(len a, len b)`. -/
theorem number_int_sub_abs_spec (a b : Number) (neg : Bool)
    (hbase : b.base = a.base) (hb : 2 ≤ a.base)
    (hane : a.digits ≠ []) (hbne : b.digits ≠ [])
    (hadl : a.decimalLength = 0) (harl : a.repeatingLength = 0)
    (hbdl : b.decimalLength = 0) (hbrl : b.repeatingLength = 0)
    (hda : ∀ d ∈ a.digits, d < a.base) (hdb : ∀ d ∈ b.digits, d < a.base) :
    (number_int_sub_abs a b neg).base = a.base ∧
    (number_int_sub_abs a b neg).decimalLength = 0 ∧
    (number_int_sub_abs a b neg).repeatingLength = 0 ∧
    CanonDigits (number_int_sub_abs a b neg).digits ∧
    (∀ d ∈ (number_int_sub_abs a b neg).digits, d < a.base) ∧
    digitsVal a.base (number_int_sub_abs a b neg).digits
      < a.base ^ (max a.digits.length b.digits.length) ∧
    ∃ borrow : Nat, borrow ≤ 1 ∧
      (digitsVal a.base (number_int_sub_abs a b neg).digits : Int)
        = (digitsVal a.base a.digits : Int) - (digitsVal a.base b.digits : Int)
          + (borrow : Int) * (a.base : Int) ^ (max a.digits.length b.digits.length) := by
  have halen : 0 < a.digits.length := List.length_pos.mpr hane
  have hblen : 0 < b.digits.length := List.length_pos.mpr hbne
  have hsub : number_int_sub_abs a b neg
      = normalize_number ⟨a.base,
          ((subLSB a.base
            (((List.replicate (max a.digits.length b.digits.length - a.digits.length) 0
                ++ a.digits).reverse).zip
              ((List.replicate (max a.digits.length b.digits.length - b.digits.length) 0
                ++ b.digits).reverse)) 0).1).reverse,
          neg, 0, 0⟩ := by
    unfold number_int_sub_abs
    rw [if_neg (by rw [hbase]; exact fun h => h rfl)]
    rw [if_neg (by push_neg; exact ⟨hadl, hbdl, harl, hbrl⟩)]
  have hlenA : (List.replicate (max a.digits.length b.digits.length - a.digits.length) 0
      ++ a.digits).length = max a.digits.length b.digits.length := by
    rw [List.length_append, List.length_replicate]
    omega
  have hlenB : (List.replicate (max a.digits.length b.digits.length - b.digits.length) 0
      ++ b.digits).length = max a.digits.length b.digits.length := by
    rw [List.length_append, List.length_replicate]
    omega
  have hziplen : ((List.replicate (max a.digits.length b.digits.length - a.digits.length) 0
      ++ a.digits).reverse.zip
      (List.replicate (max a.digits.length b.digits.length - b.digits.length) 0
      ++ b.digits).reverse).length = max a.digits.length b.digits.length := by
    rw [List.length_zip, List.length_reverse, List.length_reverse, hlenA, hlenB]
    simp
  have hmapf : (((List.replicate (max a.digits.length b.digits.length - a.digits.length) 0
      ++ a.digits).reverse).zip
      ((List.replicate (max a.digits.length b.digits.length - b.digits.length) 0
      ++ b.digits).reverse)).map Prod.fst
      = (List.replicate (max a.digits.length b.digits.length - a.digits.length) 0
        ++ a.digits).reverse := by
    apply List.map_fst_zip
    rw [List.length_reverse, List.length_reverse, hlenA, hlenB]
  have hmaps : (((List.replicate (max a.digits.length b.digits.length - a.digits.length) 0
      ++ a.digits).reverse).zip
      ((List.replicate (max a.digits.length b.digits.length - b.digits.length) 0
      ++ b.digits).reverse)).map Prod.snd
      = (List.replicate (max a.digits.length b.digits.length - b.digits.length) 0
        ++ b.digits).reverse := by
    apply List.map_snd_zip
    rw [List.length_reverse, List.length_reverse, hlenA, hlenB]
  have hspec := subLSB_spec a.base hb
    (((List.replicate (max a.digits.length b.digits.length - a.digits.length) 0
        ++ a.digits).reverse).zip
      ((List.replicate (max a.digits.length b.digits.length - b.digits.length) 0
        ++ b.digits).reverse)) 0 (by omega)
    (by
      intro p hp
      have h1 := (List.of_mem_zip hp).1
      rw [List.mem_reverse] at h1
      rcases List.mem_append.mp h1 with h2 | h2
      · have := List.eq_of_mem_replicate h2
        omega
      · exact hda _ h2)
    (by
      intro p hp
      have h1 := (List.of_mem_zip hp).2
      rw [List.mem_reverse] at h1
      rcases List.mem_append.mp h1 with h2 | h2
      · have := List.eq_of_mem_replicate h2
        omega
      · exact hdb _ h2)
  obtain ⟨hrl1, hrd1, hrb1, hrv1⟩ := hspec
  rw [hmapf, hmaps, hziplen] at hrv1
  rw [← digitsVal_eq_valLSB_reverse, ← digitsVal_eq_valLSB_reverse,
    digitsVal_replicate_prepend, digitsVal_replicate_prepend] at hrv1
  set raw := (subLSB a.base
      (((List.replicate (max a.digits.length b.digits.length - a.digits.length) 0
        ++ a.digits).reverse).zip
      ((List.replicate (max a.digits.length b.digits.length - b.digits.length) 0
        ++ b.digits).reverse)) 0) with hraw
  have hrawlen : raw.1.reverse.length = max a.digits.length b.digits.length := by
    rw [List.length_reverse, hrl1, hziplen]
  have hrawne : raw.1.reverse ≠ [] := by
    intro h
    rw [h] at hrawlen
    have h2 : (0 : Nat) = max a.digits.length b.digits.length := hrawlen
    omega
  have hrawd : ∀ d ∈ raw.1.reverse, d < a.base := by
    intro d hd
    exact hrd1 d (List.mem_reverse.mp hd)
  have hrawval : digitsVal a.base raw.1.reverse = valLSB a.base raw.1 := by
    rw [digitsVal_eq_valLSB_reverse, List.reverse_reverse]
  obtain ⟨hnb, hnd, hnr, hnc, hnv, hnbound⟩ :=
    normalize_int_props ⟨a.base, raw.1.reverse, neg, 0, 0⟩ hrawne rfl rfl
  rw [hsub]
  refine ⟨hnb, hnd, hnr, hnc, ?_, ?_, ⟨raw.2, hrb1, ?_⟩⟩
  · exact hnbound a.base (by omega) hrawd
  · rw [hnv a.base]
    show digitsVal a.base raw.1.reverse < _
    have := digitsVal_lt a.base raw.1.reverse hrawd
    rw [hrawlen] at this
    exact this
  · rw [hnv a.base]
    show (digitsVal a.base raw.1.reverse : Int) = _
    rw [hrawval]
    rw [hrv1]
    push_cast
    ring

/-- With the documented precondition `|b| ≤ |a|`, the discarded borrow is
zero and `number_int_sub_abs` computes the exact difference. -/
theorem number_int_sub_abs_val (a b : Number) (neg : Bool)
    (hbase : b.base = a.base) (hb : 2 ≤ a.base)
    (hane : a.digits ≠ []) (hbne : b.digits ≠ [])
    (hadl : a.decimalLength = 0) (harl : a.repeatingLength = 0)
    (hbdl : b.decimalLength = 0) (hbrl : b.repeatingLength = 0)
    (hda : ∀ d ∈ a.digits, d < a.base) (hdb : ∀ d ∈ b.digits, d < a.base)
    (hge : digitsVal a.base b.digits ≤ digitsVal a.base a.digits) :
    digitsVal a.base (number_int_sub_abs a b neg).digits
      = digitsVal a.base a.digits - digitsVal a.base b.digits := by
  obtain ⟨-, -, -, -, -, hbound, borrow, hble, hval⟩ :=
    number_int_sub_abs_spec a b neg hbase hb hane hbne hadl harl hbdl hbrl hda hdb
  have hcast : ((a.base ^ (max a.digits.length b.digits.length) : Nat) : Int)
      = (a.base : Int) ^ (max a.digits.length b.digits.length) := by
    push_cast
    ring
  rcases Nat.le_one_iff_eq_zero_or_eq_one.mp hble with h1 | h1
  · rw [h1] at hval
    simp at hval
    omega
  · rw [h1] at hval
    simp at hval
    rw [← hcast] at hval
    have h2 : (digitsVal a.base (number_int_sub_abs a b neg).digits : Int)
        < ((a.base ^ (max a.digits.length b.digits.length) : Nat) : Int) := by
      exact_mod_cast hbound
    omega

/-- C9.  When `number_int_sub_abs` is called with `|a| < |b|` — violating
its documented precondition — it neither crashes nor returns the invalid
sentinel: the final borrow is silently discarded, so the returned magnitude
is exactly `(|a| - |b|) mod base ^ max(len a, len b)` (then normalized). -/
theorem claim_C9 (a b : Number) (neg : Bool)
    (hbase : b.base = a.base) (hb : 2 ≤ a.base)
    (hane : a.digits ≠ []) (hbne : b.digits ≠ [])
    (hadl : a.decimalLength = 0) (harl : a.repeatingLength = 0)
    (hbdl : b.decimalLength = 0) (hbrl : b.repeatingLength = 0)
    (hda : ∀ d ∈ a.digits, d < a.base) (hdb : ∀ d ∈ b.digits, d < a.base)
    (hlt : digitsVal a.base a.digits < digitsVal a.base b.digits) :
    (number_int_sub_abs a b neg).digits ≠ [] ∧
    (digitsVal a.base (number_int_sub_abs a b neg).digits : Int)
      = ((digitsVal a.base a.digits : Int) - (digitsVal a.base b.digits : Int))
          % (a.base : Int) ^ (max a.digits.length b.digits.length) := by
  obtain ⟨-, -, -, hcanon, -, hbound, borrow, hble, hval⟩ :=
    number_int_sub_abs_spec a b neg hbase hb hane hbne hadl harl hbdl hbrl hda hdb
  refine ⟨hcanon.ne_nil, ?_⟩
  have hcast : ((a.base ^ (max a.digits.length b.digits.length) : Nat) : Int)
      = (a.base : Int) ^ (max a.digits.length b.digits.length) := by
    push_cast
    ring
  have hBpos : 0 < a.base ^ (max a.digits.length b.digits.length) :=
    Nat.pos_pow_of_pos _ (by omega)
  have hBlt : digitsVal a.base b.digits
      < a.base ^ (max a.digits.length b.digits.length) := by
    calc digitsVal a.base b.digits < a.base ^ b.digits.length :=
          digitsVal_lt _ _ hdb
      _ ≤ _ := Nat.pow_le_pow_right (by omega) (le_max_right _ _)
  have hb1 : borrow = 1 := by
    rcases Nat.le_one_iff_eq_zero_or_eq_one.mp hble with h1 | h1
    · rw [h1] at hval
      simp at hval
      have h2 : (0 : Int) ≤ digitsVal a.base (number_int_sub_abs a b neg).digits :=
        Int.ofNat_nonneg _
      omega
    · exact h1
  rw [hb1] at hval
  simp at hval
  rw [hval]
  rw [← hcast]
  have hD : -(((a.base ^ (max a.digits.length b.digits.length) : Nat)) : Int)
      ≤ (digitsVal a.base a.digits : Int) - digitsVal a.base b.digits := by
    have : (digitsVal a.base b.digits : Int)
        ≤ ((a.base ^ (max a.digits.length b.digits.length) : Nat) : Int) := by
      exact_mod_cast Nat.le_of_lt hBlt
    omega
  have hneg : (digitsVal a.base a.digits : Int) - digitsVal a.base b.digits < 0 := by
    have : (digitsVal a.base a.digits : Int) < digitsVal a.base b.digits := by
      exact_mod_cast hlt
    omega
  have hMpos : (0 : Int)
      < ((a.base ^ (max a.digits.length b.digits.length) : Nat) : Int) := by
    exact_mod_cast hBpos
  have e2 : ((digitsVal a.base a.digits : Int) - digitsVal a.base b.digits
        + ((a.base ^ (max a.digits.length b.digits.length) : Nat) : Int))
        % ((a.base ^ (max a.digits.length b.digits.length) : Nat) : Int)
      = (digitsVal a.base a.digits : Int) - digitsVal a.base b.digits
        + ((a.base ^ (max a.digits.length b.digits.length) : Nat) : Int) :=
    Int.emod_eq_of_lt (by omega) (by omega)
  calc (digitsVal a.base a.digits : Int) - digitsVal a.base b.digits
        + ((a.base ^ (max a.digits.length b.digits.length) : Nat) : Int)
      = ((digitsVal a.base a.digits : Int) - digitsVal a.base b.digits
          + ((a.base ^ (max a.digits.length b.digits.length) : Nat) : Int))
          % ((a.base ^ (max a.digits.length b.digits.length) : Nat) : Int) := e2.symm
    _ = ((digitsVal a.base a.digits : Int) - digitsVal a.base b.digits
          + ((a.base ^ (max a.digits.length b.digits.length) : Nat) : Int) * 1)
          % ((a.base ^ (max a.digits.length b.digits.length) : Nat) : Int) := by
        rw [mul_one]
    _ = ((digitsVal a.base a.digits : Int) - digitsVal a.base b.digits)
          % ((a.base ^ (max a.digits.length b.digits.length) : Nat) : Int) :=
        Int.add_mul_emod_self_left _ _ _

/-- Witness for C9: 1 - 3 in base 10 returns the single digit 8, which is
(1 - 3) mod 10. -/
theorem claim_C9_witness :
    ((⟨10, [3], false, 0, 0⟩ : Number).base = (⟨10, [1], false, 0, 0⟩ : Number).base ∧
      2 ≤ (⟨10, [1], false, 0, 0⟩ : Number).base ∧
      digitsVal 10 [1] < digitsVal 10 [3]) ∧
    (number_int_sub_abs ⟨10, [1], false, 0, 0⟩ ⟨10, [3], false, 0, 0⟩ false).digits ≠ [] ∧
    (digitsVal 10 (number_int_sub_abs ⟨10, [1], false, 0, 0⟩
        ⟨10, [3], false, 0, 0⟩ false).digits : Int)
      = ((digitsVal 10 [1] : Int) - (digitsVal 10 [3] : Int)) % (10 : Int) ^ 1 :=
  ⟨⟨rfl, by decide, by decide⟩, by
    have h := claim_C9 ⟨10, [1], false, 0, 0⟩ ⟨10, [3], false, 0, 0⟩ false
      rfl (by decide) (by decide) (by decide) rfl rfl rfl rfl
      (by decide) (by decide) (by decide)
    simpa using h⟩

/-! ## Long division: `number_int_divmod_abs` and its helpers

`int_scalar_mul` (main.c 415-439), the remainder shift-and-append loop
(main.c 539-555), the per-digit binary search (main.c 557-585) and the
outer MSB-first loop (main.c 538-604).  The C binary search is a `while`
loop whose interval shrinks by at least one each pass; it is rendered with
an explicit fuel of `base + 1`, an upper bound on the number of passes
(the interval starts with `base` candidates), so the fuel never runs out. -/

/-- The shared least-significant-first multiply-accumulate loop: digit times
`factor` plus incoming carry, emitting `p % base` and carrying `p / base`. -/
def scalarMulLoop (bb f : Nat) : List Nat → Nat → List Nat × Nat
  | [], c => ([], c)
  | d :: ds, c =>
    let p := d * f + c
    let r := scalarMulLoop bb f ds (p / bb)
    (p % bb :: r.1, r.2)

/-- main.c 415-439: multiply a non-negative integer by a single digit
factor; the result buffer holds the final carry in front of the mapped
digits, then is normalized. -/
def int_scalar_mul (src : Number) (factor : Nat) : Number :=
  let r := scalarMulLoop src.base factor src.digits.reverse 0
  normalize_number ⟨src.base, r.2 :: r.1.reverse, false, 0, 0⟩

/-- main.c 539-555: `remainder = remainder * base + digit`, digit-wise with
carry, growing the buffer by one place when a carry spills over, then
normalized. -/
def remShiftAdd (bb : Nat) (rem : Number) (d : Nat) : Number :=
  let r := scalarMulLoop bb bb rem.digits.reverse d
  let ds := if 0 < r.2 then r.2 :: r.1.reverse else r.1.reverse
  normalize_number ⟨bb, ds, false, 0, 0⟩

/-- main.c 557-585: binary search for the largest digit `q ∈ [0, base)`
with `denominator * q ≤ remainder`, via `compare_int_abs` on
`int_scalar_mul` products.  `best` is the C `q_digit` accumulator. -/
def divmodSearch (den rem : Number) (bb : Nat) : Nat → Nat → Nat → Nat → Nat
  | 0, _, _, best => best
  | fuel + 1, low, high, best =>
    if low ≤ high then
      if compare_int_abs (int_scalar_mul den ((low + high) / 2)) rem ≤ 0 then
        if (low + high) / 2 = bb - 1 then (low + high) / 2
        else divmodSearch den rem bb fuel ((low + high) / 2 + 1) high ((low + high) / 2)
      else
        if (low + high) / 2 = 0 then best
        else divmodSearch den rem bb fuel low ((low + high) / 2 - 1) best
    else best

/-- main.c 538-604: the MSB-first outer loop.  Each numerator digit shifts
the running remainder, the binary search picks the quotient digit, and a
non-zero digit subtracts `denominator * q` from the remainder. -/
def divmodLoop (bb : Nat) (den : Number) : List Nat → Number → List Nat × Number
  | [], rem => ([], rem)
  | d :: ds, rem =>
    let rem1 := remShiftAdd bb rem d
    let q := divmodSearch den rem1 bb (bb + 1) 0 (bb - 1) 0
    let rem2 := if q ≠ 0 then number_int_sub_abs rem1 (int_scalar_mul den q) false
      else rem1
    let r := divmodLoop bb den ds rem2
    (q :: r.1, r.2)

/-- main.c 448-616: integer-only division with remainder.  Validation
failures and a zero denominator leave the outputs in their initial
"invalid" state (base-10, empty digit buffer); a numerator smaller than the
denominator short-circuits to quotient zero and a normalized copy of the
numerator; otherwise the long-division loop runs and both outputs are
normalized. -/
def number_int_divmod_abs (numerator denominator : Number) : Number × Number :=
  if numerator.base ≠ denominator.base then
    (⟨10, [], false, 0, 0⟩, ⟨10, [], false, 0, 0⟩)
  else if numerator.decimalLength ≠ 0 ∨ denominator.decimalLength ≠ 0 ∨
      numerator.repeatingLength ≠ 0 ∨ denominator.repeatingLength ≠ 0 then
    (⟨10, [], false, 0, 0⟩, ⟨10, [], false, 0, 0⟩)
  else if denominator.digits.all (· == 0) then
    (⟨10, [], false, 0, 0⟩, ⟨10, [], false, 0, 0⟩)
  else if compare_int_abs numerator denominator < 0 then
    (⟨numerator.base, [0], false, 0, 0⟩,
     normalize_number ⟨numerator.base, numerator.digits, false, 0, 0⟩)
  else
    let r := divmodLoop numerator.base denominator numerator.digits
      ⟨numerator.base, [0], false, 0, 0⟩
    (normalize_number ⟨numerator.base, r.1, false, 0, 0⟩,
     normalize_number ⟨numerator.base, r.2.digits, false, 0, 0⟩)

/-- Invariant of the multiply-accumulate loop: digit count preserved, output
digits in range, carry bounded whenever `factor ≤ base`, and the value
identity `out + carry * base ^ n = in * factor + carryIn`. -/
theorem scalarMulLoop_spec (bb f : Nat) (hb : 1 ≤ bb) (ds : List Nat) (c : Nat) :
    (scalarMulLoop bb f ds c).1.length = ds.length ∧
    (∀ d ∈ (scalarMulLoop bb f ds c).1, d < bb) ∧
    (c < bb → f ≤ bb → (∀ d ∈ ds, d < bb) → (scalarMulLoop bb f ds c).2 < bb) ∧
    valLSB bb (scalarMulLoop bb f ds c).1
        + (scalarMulLoop bb f ds c).2 * bb ^ ds.length
      = valLSB bb ds * f + c := by
  induction ds generalizing c with
  | nil =>
    refine ⟨rfl, ?_, fun hc _ _ => hc, ?_⟩
    · intro d hd
      simp [scalarMulLoop] at hd
    · show 0 + c * 1 = 0 * f + c
      ring
  | cons d ds ih =>
    obtain ⟨ihl, ihd, ihc, ihv⟩ := ih ((d * f + c) / bb)
    have hstep : scalarMulLoop bb f (d :: ds) c
        = ((d * f + c) % bb :: (scalarMulLoop bb f ds ((d * f + c) / bb)).1,
           (scalarMulLoop bb f ds ((d * f + c) / bb)).2) := rfl
    rw [hstep]
    refine ⟨by simpa using ihl, ?_, ?_, ?_⟩
    · intro x hx
      rcases List.mem_cons.mp hx with h | h
      · rw [h]
        exact Nat.mod_lt _ (by omega)
      · exact ihd x h
    · intro hc hf hdig
      apply ihc _ hf (fun x hx => hdig x (List.mem_cons_of_mem _ hx))
      have hd : d < bb := hdig d (List.mem_cons_self _ _)
      have h1 : d * f + c < bb * bb := by nlinarith
      exact Nat.div_lt_of_lt_mul h1
    · show (d * f + c) % bb + bb * valLSB bb (scalarMulLoop bb f ds ((d * f + c) / bb)).1
          + (scalarMulLoop bb f ds ((d * f + c) / bb)).2 * bb ^ (ds.length + 1)
        = (d + bb * valLSB bb ds) * f + c
      have hdm : (d * f + c) % bb + bb * ((d * f + c) / bb) = d * f + c :=
        Nat.mod_add_div _ _
      have hpow : bb ^ (ds.length + 1) = bb * bb ^ ds.length := by
        rw [pow_succ]
        ring
      rw [hpow]
      nlinarith [ihv]

/-- `int_scalar_mul` produces a canonical integer Number in `src`'s base
whose value is `|src| * factor`, whenever `factor ≤ base`. -/
theorem int_scalar_mul_spec (src : Number) (f : Nat) (hb : 2 ≤ src.base)
    (hdig : ∀ d ∈ src.digits, d < src.base) (hf : f ≤ src.base) :
    (int_scalar_mul src f).base = src.base ∧
    (int_scalar_mul src f).decimalLength = 0 ∧
    (int_scalar_mul src f).repeatingLength = 0 ∧
    CanonDigits (int_scalar_mul src f).digits ∧
    (∀ d ∈ (int_scalar_mul src f).digits, d < src.base) ∧
    digitsVal src.base (int_scalar_mul src f).digits
      = digitsVal src.base src.digits * f := by
  obtain ⟨hl, hd, hc, hv⟩ :=
    scalarMulLoop_spec src.base f (by omega) src.digits.reverse 0
  rw [List.length_reverse] at hv
  have hcarry : (scalarMulLoop src.base f src.digits.reverse 0).2 < src.base :=
    hc (by omega) hf (fun d hd2 => hdig d (List.mem_reverse.mp hd2))
  have hrawne : ((scalarMulLoop src.base f src.digits.reverse 0).2
      :: (scalarMulLoop src.base f src.digits.reverse 0).1.reverse) ≠ [] := by
    simp
  have hrawd : ∀ d ∈ ((scalarMulLoop src.base f src.digits.reverse 0).2
      :: (scalarMulLoop src.base f src.digits.reverse 0).1.reverse), d < src.base := by
    intro d hd2
    rcases List.mem_cons.mp hd2 with h | h
    · omega
    · exact hd d (List.mem_reverse.mp h)
  have hrawv : digitsVal src.base ((scalarMulLoop src.base f src.digits.reverse 0).2
      :: (scalarMulLoop src.base f src.digits.reverse 0).1.reverse)
      = digitsVal src.base src.digits * f := by
    rw [digitsVal_cons, List.length_reverse, hl, List.length_reverse]
    rw [digitsVal_eq_valLSB_reverse, List.reverse_reverse]
    rw [digitsVal_eq_valLSB_reverse src.base src.digits]
    omega
  obtain ⟨hnb, hnd, hnr, hnc, hnv, hnbound⟩ :=
    normalize_int_props ⟨src.base, (scalarMulLoop src.base f src.digits.reverse 0).2
      :: (scalarMulLoop src.base f src.digits.reverse 0).1.reverse, false, 0, 0⟩
      hrawne rfl rfl
  have hism : int_scalar_mul src f
      = normalize_number ⟨src.base, (scalarMulLoop src.base f src.digits.reverse 0).2
          :: (scalarMulLoop src.base f src.digits.reverse 0).1.reverse, false, 0, 0⟩ := rfl
  rw [hism]
  refine ⟨hnb, hnd, hnr, hnc, ?_, ?_⟩
  · exact hnbound src.base (by omega) hrawd
  · rw [hnv src.base]
    exact hrawv

/-- `remShiftAdd` produces a canonical integer Number of value
`|rem| * base + d`. -/
theorem remShiftAdd_spec (bb : Nat) (hb : 2 ≤ bb) (rem : Number) (d : Nat)
    (hne : rem.digits ≠ []) (hdig : ∀ x ∈ rem.digits, x < bb) (hd : d < bb) :
    (remShiftAdd bb rem d).base = bb ∧
    (remShiftAdd bb rem d).decimalLength = 0 ∧
    (remShiftAdd bb rem d).repeatingLength = 0 ∧
    CanonDigits (remShiftAdd bb rem d).digits ∧
    (∀ x ∈ (remShiftAdd bb rem d).digits, x < bb) ∧
    digitsVal bb (remShiftAdd bb rem d).digits
      = digitsVal bb rem.digits * bb + d := by
  obtain ⟨hl, hdo, hc, hv⟩ := scalarMulLoop_spec bb bb (by omega) rem.digits.reverse d
  rw [List.length_reverse] at hv
  have hrawne : (if 0 < (scalarMulLoop bb bb rem.digits.reverse d).2 then
      (scalarMulLoop bb bb rem.digits.reverse d).2
        :: (scalarMulLoop bb bb rem.digits.reverse d).1.reverse
      else (scalarMulLoop bb bb rem.digits.reverse d).1.reverse) ≠ [] := by
    split_ifs with h
    · simp
    · intro h2
      have h3 := congrArg List.length h2
      rw [List.length_reverse, hl, List.length_reverse] at h3
      exact hne (List.length_eq_zero.mp h3)
  have hrawd : ∀ x ∈ (if 0 < (scalarMulLoop bb bb rem.digits.reverse d).2 then
      (scalarMulLoop bb bb rem.digits.reverse d).2
        :: (scalarMulLoop bb bb rem.digits.reverse d).1.reverse
      else (scalarMulLoop bb bb rem.digits.reverse d).1.reverse), x < bb := by
    have hcarry : (scalarMulLoop bb bb rem.digits.reverse d).2 < bb :=
      hc hd (le_refl _) (fun x hx => hdig x (List.mem_reverse.mp hx))
    split_ifs with h
    · intro x hx
      rcases List.mem_cons.mp hx with h2 | h2
      · omega
      · exact hdo x (List.mem_reverse.mp h2)
    · intro x hx
      exact hdo x (List.mem_reverse.mp hx)
  have hrawv : digitsVal bb (if 0 < (scalarMulLoop bb bb rem.digits.reverse d).2 then
      (scalarMulLoop bb bb rem.digits.reverse d).2
        :: (scalarMulLoop bb bb rem.digits.reverse d).1.reverse
      else (scalarMulLoop bb bb rem.digits.reverse d).1.reverse)
      = digitsVal bb rem.digits * bb + d := by
    split_ifs with h
    · rw [digitsVal_cons, List.length_reverse, hl, List.length_reverse,
        digitsVal_eq_valLSB_reverse bb
          (scalarMulLoop bb bb rem.digits.reverse d).1.reverse,
        List.reverse_reverse, digitsVal_eq_valLSB_reverse bb rem.digits]
      omega
    · have h0 : (scalarMulLoop bb bb rem.digits.reverse d).2 = 0 := by omega
      rw [h0, Nat.zero_mul, Nat.add_zero] at hv
      rw [digitsVal_eq_valLSB_reverse bb
          (scalarMulLoop bb bb rem.digits.reverse d).1.reverse,
        List.reverse_reverse, digitsVal_eq_valLSB_reverse bb rem.digits]
      omega
  have hrsa : remShiftAdd bb rem d
      = normalize_number ⟨bb, (if 0 < (scalarMulLoop bb bb rem.digits.reverse d).2 then
          (scalarMulLoop bb bb rem.digits.reverse d).2
            :: (scalarMulLoop bb bb rem.digits.reverse d).1.reverse
          else (scalarMulLoop bb bb rem.digits.reverse d).1.reverse), false, 0, 0⟩ := rfl
  obtain ⟨hnb, hnd, hnr, hnc, hnv, hnbound⟩ :=
    normalize_int_props ⟨bb, (if 0 < (scalarMulLoop bb bb rem.digits.reverse d).2 then
        (scalarMulLoop bb bb rem.digits.reverse d).2
          :: (scalarMulLoop bb bb rem.digits.reverse d).1.reverse
        else (scalarMulLoop bb bb rem.digits.reverse d).1.reverse), false, 0, 0⟩
      hrawne rfl rfl
  rw [hrsa]
  refine ⟨hnb, hnd, hnr, hnc, ?_, ?_⟩
  · exact hnbound bb (by omega) hrawd
  · rw [hnv bb]
    exact hrawv

/-- The candidate test of the binary search is exactly the magnitude test
`den * q ≤ rem`, for canonical operands. -/
theorem divmod_compare_iff (den rem : Number) (bb : Nat) (hb : 2 ≤ bb)
    (hbden : den.base = bb)
    (hcden : CanonDigits den.digits) (hdden : ∀ d ∈ den.digits, d < bb)
    (hcrem : CanonDigits rem.digits) (hdrem : ∀ d ∈ rem.digits, d < bb)
    (q : Nat) (hq : q ≤ bb) :
    (compare_int_abs (int_scalar_mul den q) rem ≤ 0 ↔
      digitsVal bb den.digits * q ≤ digitsVal bb rem.digits) := by
  obtain ⟨-, -, -, hpc, hpd, hpv⟩ := int_scalar_mul_spec den q
    (by omega) (by rw [hbden]; exact hdden) (by rw [hbden]; exact hq)
  rw [hbden] at hpd hpv
  rcases compare_int_abs_spec bb (by omega) (int_scalar_mul den q) rem
      hpc hcrem hpd hdrem with ⟨hc, hv⟩ | ⟨hc, hv⟩ | ⟨hc, hv⟩
  · rw [hpv] at hv
    rw [hc]
    constructor
    · intro _
      omega
    · intro _
      decide
  · have hv2 : digitsVal bb den.digits * q = digitsVal bb rem.digits := by
      rw [← hpv, hv]
    rw [hc]
    constructor
    · intro _
      omega
    · intro _
      decide
  · rw [hpv] at hv
    rw [hc]
    constructor
    · intro h
      exact absurd h (by decide)
    · intro h
      omega

/-- main.c 548-570: the binary search returns the largest digit `q` with
`den * q ≤ rem`, provided that maximum (named `Q` here) is below the base
and the loop state satisfies the loop invariants. -/
theorem divmodSearch_correct (den rem : Number) (bb : Nat) (hb : 2 ≤ bb)
    (hbden : den.base = bb)
    (hcden : CanonDigits den.digits) (hdden : ∀ d ∈ den.digits, d < bb)
    (hcrem : CanonDigits rem.digits) (hdrem : ∀ d ∈ rem.digits, d < bb)
    (Q : Nat) (hQle : Q ≤ bb - 1)
    (hQP : digitsVal bb den.digits * Q ≤ digitsVal bb rem.digits)
    (hQmax : ∀ q, q ≤ bb - 1 → digitsVal bb den.digits * q ≤ digitsVal bb rem.digits → q ≤ Q) :
    ∀ fuel low high best, best ≤ Q → (Q ≤ high ∨ Q = best) → low ≤ Q + 1 →
      (best + 1 = low ∨ (low = 0 ∧ best = 0)) → high + 1 - low < fuel → high ≤ bb - 1 →
      divmodSearch den rem bb fuel low high best = Q := by
  intro fuel
  induction fuel with
  | zero =>
    intro low high best _ _ _ _ hf _
    omega
  | succ fuel ih =>
    intro low high best hb1 hb2 hb3 hb4 hf hhi
    simp only [divmodSearch]
    by_cases hlh : low ≤ high
    · rw [if_pos hlh]
      set m := (low + high) / 2 with hm
      have hmlow : low ≤ m := by omega
      have hmhigh : m ≤ high := by omega
      have hciff := divmod_compare_iff den rem bb hb hbden hcden hdden hcrem hdrem m (by omega)
      by_cases hcmp : compare_int_abs (int_scalar_mul den m) rem ≤ 0
      · rw [if_pos hcmp]
        have hPm := hciff.mp hcmp
        have hmQ : m ≤ Q := hQmax m (by omega) hPm
        by_cases hmb : m = bb - 1
        · rw [if_pos hmb]
          omega
        · rw [if_neg hmb]
          exact ih (m + 1) high m (by omega) (by omega) (by omega) (by omega)
            (by omega) (by omega)
      · rw [if_neg hcmp]
        have hnPm : ¬ digitsVal bb den.digits * m ≤ digitsVal bb rem.digits :=
          fun h => hcmp (hciff.mpr h)
        have hQm : Q < m := by
          by_contra hcon
          push_neg at hcon
          exact hnPm (le_trans (Nat.mul_le_mul_left _ hcon) hQP)
        by_cases hm0 : m = 0
        · rw [if_pos hm0]
          omega
        · rw [if_neg hm0]
          exact ih low (m - 1) best (by omega) (by omega) (by omega) (by omega)
            (by omega) (by omega)
    · rw [if_neg hlh]
      omega

/-- One iteration of the long-division loop body (main.c 538-604): the
binary search picks exactly the quotient digit `(rem * b + d) / den`, and
the updated remainder is the corresponding modulus, kept canonical. -/
theorem divmodStep_spec (bb : Nat) (den rem : Number) (d : Nat) (q : Nat) (rem2 : Number)
    (hb : 2 ≤ bb) (hbden : den.base = bb)
    (hcden : CanonDigits den.digits) (hdden : ∀ x ∈ den.digits, x < bb)
    (hdenpos : 0 < digitsVal bb den.digits)
    (hcrem : CanonDigits rem.digits) (hdrem : ∀ x ∈ rem.digits, x < bb)
    (hremlt : digitsVal bb rem.digits < digitsVal bb den.digits)
    (hd : d < bb)
    (hq : q = divmodSearch den (remShiftAdd bb rem d) bb (bb + 1) 0 (bb - 1) 0)
    (hrem2 : rem2 = if q ≠ 0 then
        number_int_sub_abs (remShiftAdd bb rem d) (int_scalar_mul den q) false
      else remShiftAdd bb rem d) :
    q = (digitsVal bb rem.digits * bb + d) / digitsVal bb den.digits ∧
    q < bb ∧
    rem2.base = bb ∧ rem2.decimalLength = 0 ∧ rem2.repeatingLength = 0 ∧
    CanonDigits rem2.digits ∧ (∀ x ∈ rem2.digits, x < bb) ∧
    digitsVal bb rem2.digits
      = (digitsVal bb rem.digits * bb + d) % digitsVal bb den.digits := by
  obtain ⟨hr1b, hr1dl, hr1rl, hr1c, hr1d, hr1v⟩ :=
    remShiftAdd_spec bb hb rem d hcrem.ne_nil hdrem hd
  have hV1lt : digitsVal bb rem.digits * bb + d < digitsVal bb den.digits * bb := by
    have h1 := Nat.mul_le_mul_right bb
      (show digitsVal bb rem.digits + 1 ≤ digitsVal bb den.digits by omega)
    nlinarith
  have hQle : (digitsVal bb rem.digits * bb + d) / digitsVal bb den.digits ≤ bb - 1 := by
    have h1 : (digitsVal bb rem.digits * bb + d) / digitsVal bb den.digits < bb :=
      Nat.div_lt_of_lt_mul hV1lt
    omega
  have hQP : digitsVal bb den.digits *
      ((digitsVal bb rem.digits * bb + d) / digitsVal bb den.digits)
      ≤ digitsVal bb rem.digits * bb + d := Nat.mul_div_le _ _
  have hQmax : ∀ qq, qq ≤ bb - 1 →
      digitsVal bb den.digits * qq ≤ digitsVal bb rem.digits * bb + d →
      qq ≤ (digitsVal bb rem.digits * bb + d) / digitsVal bb den.digits := by
    intro qq _ hle
    exact (Nat.le_div_iff_mul_le hdenpos).mpr (by rw [Nat.mul_comm]; exact hle)
  have hqval : q = (digitsVal bb rem.digits * bb + d) / digitsVal bb den.digits := by
    rw [hq]
    have := divmodSearch_correct den (remShiftAdd bb rem d) bb hb hbden hcden hdden
      hr1c hr1d
      ((digitsVal bb rem.digits * bb + d) / digitsVal bb den.digits)
      hQle (by rw [hr1v]; exact hQP) (by rw [hr1v]; exact hQmax)
      (bb + 1) 0 (bb - 1) 0 (Nat.zero_le _) (Or.inl hQle) (Nat.zero_le _)
      (Or.inr ⟨rfl, rfl⟩) (by omega) (le_refl _)
    exact this
  refine ⟨hqval, by omega, ?_⟩
  by_cases hq0 : q = 0
  · rw [hrem2, if_neg (by simpa using hq0)]
    have hV1D : digitsVal bb rem.digits * bb + d < digitsVal bb den.digits := by
      have h0 : (digitsVal bb rem.digits * bb + d) / digitsVal bb den.digits = 0 := by
        omega
      exact (Nat.div_eq_zero_iff hdenpos).mp h0
    refine ⟨hr1b, hr1dl, hr1rl, hr1c, hr1d, ?_⟩
    rw [hr1v, Nat.mod_eq_of_lt hV1D]
  · rw [hrem2, if_pos hq0]
    have hqbase : q ≤ den.base := by rw [hbden]; omega
    obtain ⟨hpb, hpdl, hprl, hpc, hpd, hpv⟩ := int_scalar_mul_spec den q
      (by rw [hbden]; exact hb) (by rw [hbden]; exact hdden) hqbase
    rw [hbden] at hpb hpd hpv
    have hge : digitsVal bb (int_scalar_mul den q).digits
        ≤ digitsVal bb (remShiftAdd bb rem d).digits := by
      rw [hpv, hr1v, hqval]
      exact hQP
    have hbeq : (int_scalar_mul den q).base = (remShiftAdd bb rem d).base := by
      rw [hpb, hr1b]
    have hb2 : 2 ≤ (remShiftAdd bb rem d).base := by rw [hr1b]; exact hb
    obtain ⟨hsb, hsdl, hsrl, hsc, hsd, hsbound, borrow, hble, hival⟩ :=
      number_int_sub_abs_spec (remShiftAdd bb rem d) (int_scalar_mul den q) false
        hbeq hb2 hr1c.ne_nil hpc.ne_nil hr1dl hr1rl hpdl hprl
        (by rw [hr1b]; exact hr1d) (by rw [hr1b]; exact hpd)
    have hsval := number_int_sub_abs_val (remShiftAdd bb rem d) (int_scalar_mul den q) false
        hbeq hb2 hr1c.ne_nil hpc.ne_nil hr1dl hr1rl hpdl hprl
        (by rw [hr1b]; exact hr1d) (by rw [hr1b]; exact hpd)
        (by rw [hr1b]; exact hge)
    rw [hr1b] at hsb hsd hsval
    refine ⟨hsb, hsdl, hsrl, hsc, hsd, ?_⟩
    rw [hsval, hpv, hr1v, hqval]
    have hmod := Nat.div_add_mod (digitsVal bb rem.digits * bb + d) (digitsVal bb den.digits)
    omega

/-- Invariant of the MSB-first long-division loop (main.c 538-604): quotient
digit count matches the processed digits, all outputs stay in range and
canonical, the running remainder stays below the divisor, and the division
identity `rem * b^n + digits = den * quotient + finalRem` holds. -/
theorem divmodLoop_spec (bb : Nat) (hb : 2 ≤ bb) (den : Number)
    (hbden : den.base = bb) (hcden : CanonDigits den.digits)
    (hdden : ∀ x ∈ den.digits, x < bb) (hdenpos : 0 < digitsVal bb den.digits) :
    ∀ (ds : List Nat) (rem : Number), (∀ x ∈ ds, x < bb) →
      rem.base = bb → rem.decimalLength = 0 → rem.repeatingLength = 0 →
      CanonDigits rem.digits → (∀ x ∈ rem.digits, x < bb) →
      digitsVal bb rem.digits < digitsVal bb den.digits →
      (divmodLoop bb den ds rem).1.length = ds.length ∧
      (∀ x ∈ (divmodLoop bb den ds rem).1, x < bb) ∧
      (divmodLoop bb den ds rem).2.base = bb ∧
      (divmodLoop bb den ds rem).2.decimalLength = 0 ∧
      (divmodLoop bb den ds rem).2.repeatingLength = 0 ∧
      CanonDigits (divmodLoop bb den ds rem).2.digits ∧
      (∀ x ∈ (divmodLoop bb den ds rem).2.digits, x < bb) ∧
      digitsVal bb (divmodLoop bb den ds rem).2.digits < digitsVal bb den.digits ∧
      digitsVal bb rem.digits * bb ^ ds.length + digitsVal bb ds
        = digitsVal bb den.digits * digitsVal bb (divmodLoop bb den ds rem).1
          + digitsVal bb (divmodLoop bb den ds rem).2.digits := by
  intro ds
  induction ds with
  | nil =>
    intro rem _ hrb hrdl hrrl hrc hrd hrlt
    refine ⟨rfl, by simp [divmodLoop], hrb, hrdl, hrrl, hrc, hrd, hrlt, ?_⟩
    simp [divmodLoop, digitsVal_nil]
  | cons d ds ih =>
    intro rem hds hrb hrdl hrrl hrc hrd hrlt
    have hunfold : divmodLoop bb den (d :: ds) rem =
        ((divmodSearch den (remShiftAdd bb rem d) bb (bb + 1) 0 (bb - 1) 0) ::
          (divmodLoop bb den ds
            (if divmodSearch den (remShiftAdd bb rem d) bb (bb + 1) 0 (bb - 1) 0 ≠ 0 then
              number_int_sub_abs (remShiftAdd bb rem d)
                (int_scalar_mul den
                  (divmodSearch den (remShiftAdd bb rem d) bb (bb + 1) 0 (bb - 1) 0)) false
            else remShiftAdd bb rem d)).1,
         (divmodLoop bb den ds
            (if divmodSearch den (remShiftAdd bb rem d) bb (bb + 1) 0 (bb - 1) 0 ≠ 0 then
              number_int_sub_abs (remShiftAdd bb rem d)
                (int_scalar_mul den
                  (divmodSearch den (remShiftAdd bb rem d) bb (bb + 1) 0 (bb - 1) 0)) false
            else remShiftAdd bb rem d)).2) := rfl
    obtain ⟨hqv, hqlt, h2b, h2dl, h2rl, h2c, h2d, h2v⟩ :=
      divmodStep_spec bb den rem d
        (divmodSearch den (remShiftAdd bb rem d) bb (bb + 1) 0 (bb - 1) 0)
        (if divmodSearch den (remShiftAdd bb rem d) bb (bb + 1) 0 (bb - 1) 0 ≠ 0 then
          number_int_sub_abs (remShiftAdd bb rem d)
            (int_scalar_mul den
              (divmodSearch den (remShiftAdd bb rem d) bb (bb + 1) 0 (bb - 1) 0)) false
        else remShiftAdd bb rem d)
        hb hbden hcden hdden hdenpos hrc hrd hrlt (hds d (by simp)) rfl rfl
    have h2lt : digitsVal bb (if divmodSearch den (remShiftAdd bb rem d) bb
        (bb + 1) 0 (bb - 1) 0 ≠ 0 then
          number_int_sub_abs (remShiftAdd bb rem d)
            (int_scalar_mul den
              (divmodSearch den (remShiftAdd bb rem d) bb (bb + 1) 0 (bb - 1) 0)) false
        else remShiftAdd bb rem d).digits < digitsVal bb den.digits := by
      rw [h2v]
      exact Nat.mod_lt _ hdenpos
    obtain ⟨ihlen, ihqd, ihb, ihdl, ihrl, ihc, ihd, ihlt, ihv⟩ :=
      ih _ (fun x hx => hds x (by simp [hx])) h2b h2dl h2rl h2c h2d h2lt
    rw [hunfold]
    refine ⟨by simpa using ihlen, ?_, ihb, ihdl, ihrl, ihc, ihd, ihlt, ?_⟩
    · intro x hx
      rcases List.mem_cons.mp hx with hx | hx
      · omega
      · exact ihqd x hx
    · rw [digitsVal_cons, digitsVal_cons, ihlen, List.length_cons]
      have hsplit : digitsVal bb rem.digits * bb + d
          = digitsVal bb den.digits *
              divmodSearch den (remShiftAdd bb rem d) bb (bb + 1) 0 (bb - 1) 0
            + digitsVal bb (if divmodSearch den (remShiftAdd bb rem d) bb
                (bb + 1) 0 (bb - 1) 0 ≠ 0 then
              number_int_sub_abs (remShiftAdd bb rem d)
                (int_scalar_mul den
                  (divmodSearch den (remShiftAdd bb rem d) bb (bb + 1) 0 (bb - 1) 0)) false
            else remShiftAdd bb rem d).digits := by
        rw [h2v, hqv]
        have hdm := Nat.div_add_mod (digitsVal bb rem.digits * bb + d)
          (digitsVal bb den.digits)
        omega
      calc digitsVal bb rem.digits * bb ^ (ds.length + 1)
          + (d * bb ^ ds.length + digitsVal bb ds)
          = (digitsVal bb rem.digits * bb + d) * bb ^ ds.length + digitsVal bb ds := by
            rw [pow_succ]
            ring
        _ = digitsVal bb den.digits *
              (divmodSearch den (remShiftAdd bb rem d) bb (bb + 1) 0 (bb - 1) 0
                * bb ^ ds.length)
            + (digitsVal bb (if divmodSearch den (remShiftAdd bb rem d) bb
                  (bb + 1) 0 (bb - 1) 0 ≠ 0 then
                number_int_sub_abs (remShiftAdd bb rem d)
                  (int_scalar_mul den
                    (divmodSearch den (remShiftAdd bb rem d) bb (bb + 1) 0 (bb - 1) 0)) false
              else remShiftAdd bb rem d).digits * bb ^ ds.length + digitsVal bb ds) := by
            rw [hsplit]
            ring
        _ = _ := by
            rw [ihv]
            ring

/-- With a positive base, a digit string has value zero iff every digit is
zero. -/
theorem digitsVal_eq_zero_iff (b : Nat) (hb : 1 ≤ b) (ds : List Nat) :
    digitsVal b ds = 0 ↔ ∀ d ∈ ds, d = 0 := by
  induction ds with
  | nil => simp [digitsVal_nil]
  | cons d ds ih =>
    rw [digitsVal_cons]
    constructor
    · intro h
      have hpow : 0 < b ^ ds.length := Nat.pos_pow_of_pos _ hb
      have hd0 : d = 0 := by
        by_contra hd
        have : 1 ≤ d := by omega
        nlinarith
      have hds0 : digitsVal b ds = 0 := by omega
      intro x hx
      rcases List.mem_cons.mp hx with hx | hx
      · omega
      · exact ih.mp hds0 x hx
    · intro h
      have hd0 : d = 0 := h d (by simp)
      have hds0 : digitsVal b ds = 0 := ih.mpr (fun x hx => h x (by simp [hx]))
      rw [hd0, hds0]
      simp

/-- A canonical non-negative integer Number is a fixed point of
normalization. -/
theorem normalize_fixed_canon (b : Nat) (ds : List Nat) (hc : CanonDigits ds) :
    normalize_number ⟨b, ds, false, 0, 0⟩ = ⟨b, ds, false, 0, 0⟩ := by
  rcases hc with h0 | ⟨hne, hhead⟩
  · rw [h0]
    have := normalize_int_allzero ⟨b, [0], false, 0, 0⟩ (by simp) rfl rfl
      (by simp [countLeadingZeros])
    simpa using this
  · exact normalize_fixed_int b ds false hne hhead

/-- main.c 448-616 for validated non-zero-denominator inputs: the outputs of
`number_int_divmod_abs` are canonical non-negative integers in the operand
base satisfying the Euclidean identity and remainder bound. -/
theorem number_int_divmod_abs_spec (num den : Number)
    (hb : 2 ≤ num.base) (hbase : den.base = num.base)
    (hndl : num.decimalLength = 0) (hnrl : num.repeatingLength = 0)
    (hddl : den.decimalLength = 0) (hdrl : den.repeatingLength = 0)
    (hcnum : CanonDigits num.digits) (hdnum : ∀ x ∈ num.digits, x < num.base)
    (hcden : CanonDigits den.digits) (hdden : ∀ x ∈ den.digits, x < num.base)
    (hdenpos : 0 < digitsVal num.base den.digits) :
    (number_int_divmod_abs num den).1.base = num.base ∧
    (number_int_divmod_abs num den).1.decimalLength = 0 ∧
    (number_int_divmod_abs num den).1.repeatingLength = 0 ∧
    CanonDigits (number_int_divmod_abs num den).1.digits ∧
    (number_int_divmod_abs num den).2.base = num.base ∧
    (number_int_divmod_abs num den).2.decimalLength = 0 ∧
    (number_int_divmod_abs num den).2.repeatingLength = 0 ∧
    CanonDigits (number_int_divmod_abs num den).2.digits ∧
    digitsVal num.base num.digits
      = digitsVal num.base den.digits
          * digitsVal num.base (number_int_divmod_abs num den).1.digits
        + digitsVal num.base (number_int_divmod_abs num den).2.digits ∧
    digitsVal num.base (number_int_divmod_abs num den).2.digits
      < digitsVal num.base den.digits ∧
    (∀ d ∈ (number_int_divmod_abs num den).1.digits, d < num.base) ∧
    (∀ d ∈ (number_int_divmod_abs num den).2.digits, d < num.base) := by
  have h1 : ¬ num.base ≠ den.base := by simp [hbase]
  have h2 : ¬ (num.decimalLength ≠ 0 ∨ den.decimalLength ≠ 0 ∨
      num.repeatingLength ≠ 0 ∨ den.repeatingLength ≠ 0) := by
    simp [hndl, hnrl, hddl, hdrl]
  have h3 : ¬ den.digits.all (· == 0) = true := by
    intro h
    have hall : ∀ d ∈ den.digits, d = 0 := by
      intro d hd
      have := List.all_eq_true.mp h d hd
      simpa using this
    have h0 : digitsVal num.base den.digits = 0 :=
      (digitsVal_eq_zero_iff num.base (by omega) den.digits).mpr hall
    omega
  have hz : digitsVal num.base ([0] : List Nat) = 0 := by
    simp [digitsVal_cons, digitsVal_nil]
  have heq : number_int_divmod_abs num den =
      if compare_int_abs num den < 0 then
        (⟨num.base, [0], false, 0, 0⟩,
         normalize_number ⟨num.base, num.digits, false, 0, 0⟩)
      else
        (normalize_number ⟨num.base,
           (divmodLoop num.base den num.digits ⟨num.base, [0], false, 0, 0⟩).1,
           false, 0, 0⟩,
         normalize_number ⟨num.base,
           (divmodLoop num.base den num.digits ⟨num.base, [0], false, 0, 0⟩).2.digits,
           false, 0, 0⟩) := by
    unfold number_int_divmod_abs
    rw [if_neg h1, if_neg h2, if_neg h3]
  by_cases hcmp : compare_int_abs num den < 0
  · rw [heq, if_pos hcmp]
    have hlt : digitsVal num.base num.digits < digitsVal num.base den.digits := by
      rcases compare_int_abs_spec num.base (by omega) num den hcnum hcden hdnum hdden
        with ⟨hc, hv⟩ | ⟨hc, hv⟩ | ⟨hc, hv⟩
      · exact hv
      · rw [hc] at hcmp
        omega
      · rw [hc] at hcmp
        omega
    obtain ⟨hrb, hrdl, hrrl, hrc, hrv, hrd6⟩ := normalize_int_props
      ⟨num.base, num.digits, false, 0, 0⟩ hcnum.ne_nil rfl rfl
    refine ⟨rfl, rfl, rfl, Or.inl rfl, hrb, hrdl, hrrl, hrc, ?_, ?_, ?_, ?_⟩
    · rw [hz, hrv]
      show digitsVal num.base num.digits
        = digitsVal num.base den.digits * 0 + digitsVal num.base num.digits
      omega
    · rw [hrv]
      exact hlt
    · intro d hd
      simp at hd
      omega
    · exact hrd6 num.base (by omega) hdnum
  · rw [heq, if_neg hcmp]
    obtain ⟨hqlen, hqd, hfb, hfdl, hfrl, hfc, hfd, hflt, hfv⟩ :=
      divmodLoop_spec num.base hb den hbase hcden hdden hdenpos num.digits
        ⟨num.base, [0], false, 0, 0⟩ hdnum rfl rfl rfl (Or.inl rfl)
        (by intro x hx; simp at hx; omega) (by rw [hz] at *; omega)
    have hqne : (divmodLoop num.base den num.digits
        ⟨num.base, [0], false, 0, 0⟩).1 ≠ [] := by
      intro h
      have := hcnum.ne_nil
      rw [h] at hqlen
      simp at hqlen
      exact this (List.length_eq_zero.mp hqlen.symm)
    obtain ⟨hqb, hqdl, hqrl, hqc, hqv, hqd6⟩ := normalize_int_props
      ⟨num.base, (divmodLoop num.base den num.digits ⟨num.base, [0], false, 0, 0⟩).1,
        false, 0, 0⟩ hqne rfl rfl
    obtain ⟨hrb, hrdl, hrrl, hrc, hrv, hrd6⟩ := normalize_int_props
      ⟨num.base, (divmodLoop num.base den num.digits ⟨num.base, [0], false, 0, 0⟩).2.digits,
        false, 0, 0⟩ hfc.ne_nil rfl rfl
    refine ⟨hqb, hqdl, hqrl, hqc, hrb, hrdl, hrrl, hrc, ?_, ?_, ?_, ?_⟩
    · have hq2 := hqv num.base
      have hr2 := hrv num.base
      dsimp only at hq2 hr2
      rw [hq2, hr2]
      rw [hz] at hfv
      omega
    · have hr2 := hrv num.base
      dsimp only at hr2
      rw [hr2]
      exact hflt
    · exact hqd6 num.base (by omega) hqd
    · exact hrd6 num.base (by omega) hfd

/-- C2: for valid same-base integer operands with a non-zero denominator,
`number_int_divmod_abs` satisfies the Euclidean identity with
`0 ≤ remainder < denominator`; each binary-searched quotient digit is the
largest `q` in `[0, base)` with `denominator * q ≤ remainder`; a numerator
smaller than the denominator short-circuits to quotient 0 and remainder
equal to the numerator; and 100 / 7 in base 10 gives quotient 14 and
remainder 2. -/
theorem claim_C2 (num den : Number)
    (hb : 2 ≤ num.base) (hbase : den.base = num.base)
    (hndl : num.decimalLength = 0) (hnrl : num.repeatingLength = 0)
    (hddl : den.decimalLength = 0) (hdrl : den.repeatingLength = 0)
    (hcnum : CanonDigits num.digits) (hdnum : ∀ x ∈ num.digits, x < num.base)
    (hcden : CanonDigits den.digits) (hdden : ∀ x ∈ den.digits, x < num.base)
    (hnneg : num.isNegative = false)
    (hdenpos : 0 < digitsVal num.base den.digits) :
    digitsVal num.base num.digits
      = digitsVal num.base den.digits
          * digitsVal num.base (number_int_divmod_abs num den).1.digits
        + digitsVal num.base (number_int_divmod_abs num den).2.digits ∧
    digitsVal num.base (number_int_divmod_abs num den).2.digits
      < digitsVal num.base den.digits ∧
    (∀ rem1 : Number, CanonDigits rem1.digits → (∀ x ∈ rem1.digits, x < num.base) →
      divmodSearch den rem1 num.base (num.base + 1) 0 (num.base - 1) 0 < num.base ∧
      digitsVal num.base den.digits
          * divmodSearch den rem1 num.base (num.base + 1) 0 (num.base - 1) 0
        ≤ digitsVal num.base rem1.digits ∧
      (∀ q2, q2 < num.base →
        digitsVal num.base den.digits * q2 ≤ digitsVal num.base rem1.digits →
        q2 ≤ divmodSearch den rem1 num.base (num.base + 1) 0 (num.base - 1) 0)) ∧
    (digitsVal num.base num.digits < digitsVal num.base den.digits →
      number_int_divmod_abs num den = (⟨num.base, [0], false, 0, 0⟩, num)) ∧
    number_int_divmod_abs ⟨10, [1, 0, 0], false, 0, 0⟩ ⟨10, [7], false, 0, 0⟩
      = (⟨10, [1, 4], false, 0, 0⟩, ⟨10, [2], false, 0, 0⟩) := by
  obtain ⟨hqb, hqdl, hqrl, hqc, hrb, hrdl, hrrl, hrc, hident, hbound, -, -⟩ :=
    number_int_divmod_abs_spec num den hb hbase hndl hnrl hddl hdrl
      hcnum hdnum hcden hdden hdenpos
  refine ⟨hident, hbound, ?_, ?_, by decide⟩
  · intro rem1 hcr1 hdr1
    have hQdef : divmodSearch den rem1 num.base (num.base + 1) 0 (num.base - 1) 0
        = min (digitsVal num.base rem1.digits / digitsVal num.base den.digits)
            (num.base - 1) := by
      refine divmodSearch_correct den rem1 num.base hb hbase hcden hdden hcr1 hdr1
        _ (min_le_right _ _) ?_ ?_ (num.base + 1) 0 (num.base - 1) 0
        (Nat.zero_le _) (Or.inl (min_le_right _ _)) (Nat.zero_le _)
        (Or.inr ⟨rfl, rfl⟩) (by omega) (le_refl _)
      · have h1 : min (digitsVal num.base rem1.digits / digitsVal num.base den.digits)
            (num.base - 1)
            ≤ digitsVal num.base rem1.digits / digitsVal num.base den.digits :=
          min_le_left _ _
        have h2 := Nat.mul_div_le (digitsVal num.base rem1.digits)
          (digitsVal num.base den.digits)
        have h3 := Nat.mul_le_mul_left (digitsVal num.base den.digits) h1
        omega
      · intro q2 hq2le hq2
        have h1 : q2 ≤ digitsVal num.base rem1.digits / digitsVal num.base den.digits :=
          (Nat.le_div_iff_mul_le hdenpos).mpr (by rw [Nat.mul_comm]; exact hq2)
        omega
    rw [hQdef]
    refine ⟨by omega, ?_, ?_⟩
    · have h1 : min (digitsVal num.base rem1.digits / digitsVal num.base den.digits)
          (num.base - 1)
          ≤ digitsVal num.base rem1.digits / digitsVal num.base den.digits :=
        min_le_left _ _
      have h2 := Nat.mul_div_le (digitsVal num.base rem1.digits)
        (digitsVal num.base den.digits)
      have h3 := Nat.mul_le_mul_left (digitsVal num.base den.digits) h1
      omega
    · intro q2 hq2lt hq2
      have h1 : q2 ≤ digitsVal num.base rem1.digits / digitsVal num.base den.digits :=
        (Nat.le_div_iff_mul_le hdenpos).mpr (by rw [Nat.mul_comm]; exact hq2)
      omega
  · intro hlt
    have h1 : ¬ num.base ≠ den.base := by simp [hbase]
    have h2 : ¬ (num.decimalLength ≠ 0 ∨ den.decimalLength ≠ 0 ∨
        num.repeatingLength ≠ 0 ∨ den.repeatingLength ≠ 0) := by
      simp [hndl, hnrl, hddl, hdrl]
    have h3 : ¬ den.digits.all (· == 0) = true := by
      intro h
      have hall : ∀ d ∈ den.digits, d = 0 := by
        intro d hd
        have := List.all_eq_true.mp h d hd
        simpa using this
      have h0 : digitsVal num.base den.digits = 0 :=
        (digitsVal_eq_zero_iff num.base (by omega) den.digits).mpr hall
      omega
    have hcmp : compare_int_abs num den < 0 := by
      rcases compare_int_abs_spec num.base (by omega) num den hcnum hcden hdnum hdden
        with ⟨hc, hv⟩ | ⟨hc, hv⟩ | ⟨hc, hv⟩
      · omega
      · rw [hv] at hlt
        omega
      · omega
    have hnum : (⟨num.base, num.digits, false, 0, 0⟩ : Number) = num := by
      cases num
      dsimp only at hnneg hndl hnrl ⊢
      rw [hnneg, hndl, hnrl]
    unfold number_int_divmod_abs
    rw [if_neg h1, if_neg h2, if_neg h3, if_pos hcmp, normalize_fixed_canon _ _ hcnum,
      hnum]
/-- Witness: the C2 contract at 100 / 7 in base 10. -/
theorem claim_C2_witness :
    number_int_divmod_abs ⟨10, [1, 0, 0], false, 0, 0⟩ ⟨10, [7], false, 0, 0⟩
      = (⟨10, [1, 4], false, 0, 0⟩, ⟨10, [2], false, 0, 0⟩) :=
  (claim_C2 ⟨10, [1, 0, 0], false, 0, 0⟩ ⟨10, [7], false, 0, 0⟩ (by decide) (by decide)
    (by decide) (by decide) (by decide) (by decide) (Or.inr ⟨by decide, by decide⟩)
    (by decide) (Or.inr ⟨by decide, by decide⟩) (by decide) (by decide)
    (by decide)).2.2.2.2

/-- C3: a zero denominator (every digit zero) makes `number_int_divmod_abs`
return the invalid sentinel pair for every numerator: both outputs keep
empty digit buffers, so no usable quotient or remainder is produced. -/
theorem claim_C3 (x den : Number) (hz : ∀ d ∈ den.digits, d = 0) :
    number_int_divmod_abs x den = (⟨10, [], false, 0, 0⟩, ⟨10, [], false, 0, 0⟩) ∧
    (number_int_divmod_abs x den).1.digits = [] ∧
    (number_int_divmod_abs x den).2.digits = [] := by
  have hmain : number_int_divmod_abs x den
      = (⟨10, [], false, 0, 0⟩, ⟨10, [], false, 0, 0⟩) := by
    unfold number_int_divmod_abs
    by_cases h1 : x.base ≠ den.base
    · rw [if_pos h1]
    · rw [if_neg h1]
      by_cases h2 : x.decimalLength ≠ 0 ∨ den.decimalLength ≠ 0 ∨
          x.repeatingLength ≠ 0 ∨ den.repeatingLength ≠ 0
      · rw [if_pos h2]
      · rw [if_neg h2]
        have hall : den.digits.all (· == 0) = true :=
          List.all_eq_true.mpr (fun d hd => by simp [hz d hd])
        rw [if_pos hall]
  refine ⟨hmain, ?_, ?_⟩
  · rw [hmain]
  · rw [hmain]

/-- Witness: dividing 5 by 0 in base 10 yields the sentinel pair. -/
theorem claim_C3_witness :
    number_int_divmod_abs ⟨10, [5], false, 0, 0⟩ ⟨10, [0], false, 0, 0⟩
      = (⟨10, [], false, 0, 0⟩, ⟨10, [], false, 0, 0⟩) :=
  (claim_C3 ⟨10, [5], false, 0, 0⟩ ⟨10, [0], false, 0, 0⟩
    (by intro d hd; simp at hd; omega)).1

/-- main.c 675-683: the Euclidean loop of `number_int_gcd_abs`, with an
explicit fuel bound standing in for the C `while` loop.  The loop test is
the C shape test `length == 1 && digits[0] == 0`. -/
def gcdLoop : Nat → Number → Number → Option Number
  | 0, _, _ => none
  | fuel + 1, x, y =>
    if y.digits.length = 1 ∧ y.digits.headD 0 = 0 then some x
    else gcdLoop fuel y (number_int_divmod_abs x y).2

/-- main.c 622-688: gcd of absolute values.  Validation failures return the
canonical zero in the first operand's base; otherwise the loop runs on
sign-stripped normalized private copies of the inputs.  The fuel
`value of y + 1` is sufficient, as proved below. -/
def number_int_gcd_abs (a b : Number) : Number :=
  if a.digits = [] ∨ b.digits = [] ∨ a.base ≠ b.base then
    ⟨a.base, [0], false, 0, 0⟩
  else if a.decimalLength ≠ 0 ∨ b.decimalLength ≠ 0 ∨
      a.repeatingLength ≠ 0 ∨ b.repeatingLength ≠ 0 then
    ⟨a.base, [0], false, 0, 0⟩
  else
    let x := normalize_number ⟨a.base, a.digits, false, 0, 0⟩
    let y := normalize_number ⟨a.base, b.digits, false, 0, 0⟩
    (gcdLoop (digitsVal a.base y.digits + 1) x y).getD ⟨a.base, [], false, 0, 0⟩

/-- A canonical digit string that is not the single digit 0 has a non-zero
value. -/
theorem canon_val_pos (bb : Nat) (hb : 1 ≤ bb) (ds : List Nat)
    (hc : CanonDigits ds) (hne : ¬ (ds.length = 1 ∧ ds.headD 0 = 0)) :
    0 < digitsVal bb ds := by
  rcases hc with h0 | ⟨hnil, hhead⟩
  · rw [h0] at hne
    simp at hne
  · by_contra hz
    push_neg at hz
    have h0 : digitsVal bb ds = 0 := by omega
    have hall := (digitsVal_eq_zero_iff bb hb ds).mp h0
    obtain ⟨d, ds', rfl⟩ := List.exists_cons_of_ne_nil hnil
    exact hhead (hall d (by simp))

/-- Termination of the Euclidean loop: fuel exceeding the value of the
second argument guarantees a result, because each `divmod` remainder is
strictly smaller than its divisor. -/
theorem gcdLoop_some (bb : Nat) (hb : 2 ≤ bb) :
    ∀ (fuel : Nat) (x y : Number),
      x.base = bb → x.decimalLength = 0 → x.repeatingLength = 0 →
      CanonDigits x.digits → (∀ d ∈ x.digits, d < bb) →
      y.base = bb → y.decimalLength = 0 → y.repeatingLength = 0 →
      CanonDigits y.digits → (∀ d ∈ y.digits, d < bb) →
      digitsVal bb y.digits < fuel →
      ∃ g, gcdLoop fuel x y = some g := by
  intro fuel
  induction fuel with
  | zero =>
    intro x y _ _ _ _ _ _ _ _ _ _ hf
    omega
  | succ fuel ih =>
    intro x y hxb hxdl hxrl hxc hxd hyb hydl hyrl hyc hyd hf
    show ∃ g, (if y.digits.length = 1 ∧ y.digits.headD 0 = 0 then some x
      else gcdLoop fuel y (number_int_divmod_abs x y).2) = some g
    by_cases htest : y.digits.length = 1 ∧ y.digits.headD 0 = 0
    · exact ⟨x, by rw [if_pos htest]⟩
    · rw [if_neg htest]
      have hypos : 0 < digitsVal bb y.digits :=
        canon_val_pos bb (by omega) y.digits hyc htest
    
      obtain ⟨-, -, -, -, hrb, hrdl, hrrl, hrc, -, hrlt, -, hrd⟩ :=
        number_int_divmod_abs_spec x y (by omega) (by rw [hxb, hyb])
          hxdl hxrl hydl hyrl hxc (by rw [hxb]; exact hxd)
          hyc (by rw [hxb]; exact hyd) (by rw [hxb]; exact hypos)
      rw [hxb] at hrb hrlt hrd
      exact ih y (number_int_divmod_abs x y).2 hyb hydl hyrl hyc hyd
        hrb hrdl hrrl hrc hrd (by omega)

/-- C10: for valid same-base canonical integer operands, the Euclidean loop
of `number_int_gcd_abs` terminates — fuel `value of y + 1` is enough, so the
C `while` loop performs at most that many iterations — because the
`number_int_divmod_abs` remainder used as the next `y` is strictly smaller
than the current `y` whenever `y` is non-zero.  The C inputs are never
mutated: the loop runs on copies, which the embedding reflects by operating
on values. -/
theorem claim_C10 (bb : Nat) (hb : 2 ≤ bb) (x y : Number)
    (hxb : x.base = bb) (hxdl : x.decimalLength = 0) (hxrl : x.repeatingLength = 0)
    (hxc : CanonDigits x.digits) (hxd : ∀ d ∈ x.digits, d < bb)
    (hyb : y.base = bb) (hydl : y.decimalLength = 0) (hyrl : y.repeatingLength = 0)
    (hyc : CanonDigits y.digits) (hyd : ∀ d ∈ y.digits, d < bb) :
    (∃ g, gcdLoop (digitsVal bb y.digits + 1) x y = some g) ∧
    (0 < digitsVal bb y.digits →
      digitsVal bb (number_int_divmod_abs x y).2.digits < digitsVal bb y.digits) := by
  constructor
  · exact gcdLoop_some bb hb (digitsVal bb y.digits + 1) x y
      hxb hxdl hxrl hxc hxd hyb hydl hyrl hyc hyd (by omega)
  · intro hypos
    obtain ⟨-, -, -, -, -, -, -, -, -, hrlt, -, -⟩ :=
      number_int_divmod_abs_spec x y (by omega) (by rw [hxb, hyb])
        hxdl hxrl hydl hyrl hxc (by rw [hxb]; exact hxd)
        hyc (by rw [hxb]; exact hyd) (by rw [hxb]; exact hypos)
    rw [hxb] at hrlt
    exact hrlt

/-- Witness: gcd-loop termination and remainder decrease at x = 12, y = 8 in
base 10. -/
theorem claim_C10_witness :
    (∃ g, gcdLoop (digitsVal 10 [8] + 1) ⟨10, [1, 2], false, 0, 0⟩
        ⟨10, [8], false, 0, 0⟩ = some g) ∧
    (0 < digitsVal 10 [8] →
      digitsVal 10 (number_int_divmod_abs ⟨10, [1, 2], false, 0, 0⟩
          ⟨10, [8], false, 0, 0⟩).2.digits < digitsVal 10 [8]) :=
  claim_C10 10 (by decide) ⟨10, [1, 2], false, 0, 0⟩ ⟨10, [8], false, 0, 0⟩
    (by decide) (by decide) (by decide) (Or.inr ⟨by decide, by decide⟩) (by decide)
    (by decide) (by decide) (by decide) (Or.inr ⟨by decide, by decide⟩) (by decide)

/-- main.c 330-345: inner schoolbook pass for one digit `da` of the first
factor.  Operates on LSB-first lists: `bs` is the second factor (LSB) and
`seg` the result segment starting at the current output position; returns
the updated segment (untouched tail kept) and the final carry. -/
def mulInner (bb da : Nat) : List Nat → List Nat → Nat → List Nat × Nat
  | [], seg, carry => (seg, carry)
  | db :: bs, seg, carry =>
    let prod := da * db + seg.headD 0 + carry
    let r := mulInner bb da bs seg.tail (prod / bb)
    (prod % bb :: r.1, r.2)

/-- main.c 347-358: carry propagation after the inner pass, walking towards
the most significant digit; any carry left past the last digit is
discarded, as the C loop breaks at position 0. -/
def carryProp (bb : Nat) : Nat → List Nat → List Nat
  | _, [] => []
  | carry, d :: rest =>
    if 0 < carry then (d + carry) % bb :: carryProp bb ((d + carry) / bb) rest
    else d :: rest

/-- main.c 329-359: outer schoolbook loop over the first factor's digits
(LSB-first `as`), with `ia` the current output offset and `res` the
LSB-first result accumulator. -/
def mulOuter (bb : Nat) (bs : List Nat) : List Nat → Nat → List Nat → List Nat
  | [], _, res => res
  | da :: as, ia, res =>
    let r := mulInner bb da bs (res.drop ia) 0
    let res1 := res.take ia ++ r.1
    let res2 := res1.take (ia + bs.length) ++
      carryProp bb r.2 (res1.drop (ia + bs.length))
    mulOuter bb bs as (ia + 1) res2

/-- main.c 288-368: integer-only multiplication of absolute values.
Validation failures return the length-0 invalid number; the product is
accumulated into a `lenA + lenB` digit buffer and normalized. -/
def number_int_mul_abs (a b : Number) : Number :=
  if a.digits = [] ∨ b.digits = [] ∨ a.base ≠ b.base then
    ⟨a.base, [], false, 0, 0⟩
  else if a.decimalLength ≠ 0 ∨ b.decimalLength ≠ 0 ∨
      a.repeatingLength ≠ 0 ∨ b.repeatingLength ≠ 0 then
    ⟨a.base, [], false, 0, 0⟩
  else
    let resLSB := mulOuter a.base b.digits.reverse a.digits.reverse 0
      (List.replicate (a.digits.length + b.digits.length) 0)
    normalize_number ⟨a.base, resLSB.reverse, false, 0, 0⟩

/-- main.c 1031-1036 / 1158-1176: `base^k` built by repeatedly multiplying
the one-"digit" number whose digit is the base itself (as the C code
constructs it) into an accumulator starting at 1. -/
def basePowLoop (baseNum : Number) : Nat → Number → Number
  | 0, acc => acc
  | k + 1, acc => basePowLoop baseNum k (number_int_mul_abs acc baseNum)

/-- The C pattern `pow = 1; for k: pow *= base` with
`base_num = normalize(⟨[base]⟩)`. -/
def basePow (bb k : Nat) : Number :=
  basePowLoop (normalize_number ⟨bb, [bb], false, 0, 0⟩) k ⟨bb, [1], false, 0, 0⟩

/-- main.c rational_t: a pair of integer-only Numbers. -/
structure Rational where
  num : Number
  den : Number
  deriving DecidableEq

/-- main.c 694-782: build a rational from two integers; the numerator keeps
its sign (plus the denominator's sign folded in), the denominator is made
positive, both normalized.  Errors give the default 0/1 in base 10. -/
def rational_make_from_ints (num den : Number) : Rational :=
  if num.digits = [] ∨ den.digits = [] ∨ num.base ≠ den.base then
    ⟨⟨10, [0], false, 0, 0⟩, ⟨10, [1], false, 0, 0⟩⟩
  else if num.decimalLength ≠ 0 ∨ den.decimalLength ≠ 0 ∨
      num.repeatingLength ≠ 0 ∨ den.repeatingLength ≠ 0 then
    ⟨⟨10, [0], false, 0, 0⟩, ⟨10, [1], false, 0, 0⟩⟩
  else if den.digits.all (· == 0) then
    ⟨⟨10, [0], false, 0, 0⟩, ⟨10, [1], false, 0, 0⟩⟩
  else
    let rnum := normalize_number ⟨num.base, num.digits, num.isNegative, 0, 0⟩
    let rden := normalize_number ⟨num.base, den.digits, false, 0, 0⟩
    if den.isNegative then
      ⟨{ rnum with isNegative := !rnum.isNegative }, rden⟩
    else
      ⟨rnum, rden⟩

/-- main.c 792-862: reduce a rational by the gcd of the absolute values.
The quotients come from `number_int_divmod_abs`, whose outputs always carry
`is_negative = false` — the numerator's sign is not reapplied. -/
def rational_normalize (r : Rational) : Rational :=
  if r.num.digits = [] ∨ r.den.digits = [] then r
  else if r.num.decimalLength ≠ 0 ∨ r.den.decimalLength ≠ 0 ∨
      r.num.repeatingLength ≠ 0 ∨ r.den.repeatingLength ≠ 0 then r
  else if r.num.digits.all (· == 0) then
    ⟨⟨r.num.base, [0], false, 0, 0⟩, ⟨r.num.base, [1], false, 0, 0⟩⟩
  else
    let g := number_int_gcd_abs { r.num with isNegative := false } r.den
    let qn := (number_int_divmod_abs r.num g).1
    let qd := (number_int_divmod_abs r.den g).1
    if qd.isNegative then
      ⟨normalize_number { qn with isNegative := !qn.isNegative },
       normalize_number { qd with isNegative := false }⟩
    else
      ⟨normalize_number qn, normalize_number qd⟩

/-- main.c 946-1044: convert a terminating Number to a rational: numerator
is the digit string with the input's sign, denominator `base^decimalLength`
(1 when the decimal length is 0), then `rational_normalize`. -/
def rational_from_terminating_number (x : Number) : Rational :=
  if x.digits = [] then ⟨⟨10, [0], false, 0, 0⟩, ⟨10, [1], false, 0, 0⟩⟩
  else if x.repeatingLength ≠ 0 then ⟨⟨10, [0], false, 0, 0⟩, ⟨10, [1], false, 0, 0⟩⟩
  else
    let num := normalize_number ⟨x.base, x.digits, x.isNegative, 0, 0⟩
    let den := if x.decimalLength = 0 then ⟨x.base, [1], false, 0, 0⟩
      else basePow x.base x.decimalLength
    rational_normalize ⟨num, den⟩

/-- main.c 1048-1219: convert a repeating Number to a rational via
`(N - M) / (base^nonrepLen * (base^repLen - 1))`, apply the input's sign to
the numerator, then `rational_normalize`. -/
def rational_from_repeating_number (x : Number) : Rational :=
  if x.digits = [] then ⟨⟨10, [0], false, 0, 0⟩, ⟨10, [1], false, 0, 0⟩⟩
  else if x.repeatingLength = 0 then ⟨⟨10, [0], false, 0, 0⟩, ⟨10, [1], false, 0, 0⟩⟩
  else if x.decimalLength < x.repeatingLength then
    ⟨⟨10, [0], false, 0, 0⟩, ⟨10, [1], false, 0, 0⟩⟩
  else
    let nonrep := x.decimalLength - x.repeatingLength
    let intLen := x.digits.length - x.decimalLength
    let M := normalize_number ⟨x.base, x.digits.take (intLen + nonrep), false, 0, 0⟩
    let N := normalize_number ⟨x.base, x.digits, false, 0, 0⟩
    let numAbs := number_int_sub_abs N M false
    let powRepMinusOne :=
      number_int_sub_abs (basePow x.base x.repeatingLength) ⟨x.base, [1], false, 0, 0⟩ false
    let denAbs := number_int_mul_abs (basePow x.base nonrep) powRepMinusOne
    let r := rational_make_from_ints numAbs denAbs
    let r2 := if x.isNegative then
        (⟨{ r.num with isNegative := !r.num.isNegative }, r.den⟩ : Rational)
      else r
    rational_normalize r2

/-- C4: the magnitude construction of `rational_from_repeating_number` is
right — base 10 gives `fromRepeating(1.(3)) = 4/3` and
`fromRepeating(0.(3)) = 1/3` — but the claimed sign handling is not: for
`-1.(3)` the returned numerator is non-negative (`4/3`, not `-4/3`),
because the final `rational_normalize` replaces the numerator with a
quotient from `number_int_divmod_abs`, which always clears `is_negative`,
and the sign applied on main.c line 1213 is never restored. -/
theorem claim_C4 :
    rational_from_repeating_number ⟨10, [1, 3], false, 1, 1⟩
      = ⟨⟨10, [4], false, 0, 0⟩, ⟨10, [3], false, 0, 0⟩⟩ ∧
    rational_from_repeating_number ⟨10, [0, 3], false, 1, 1⟩
      = ⟨⟨10, [1], false, 0, 0⟩, ⟨10, [3], false, 0, 0⟩⟩ ∧
    (⟨10, [1, 3], true, 1, 1⟩ : Number).isNegative = true ∧
    (rational_from_repeating_number ⟨10, [1, 3], true, 1, 1⟩).num.isNegative
      = false ∧
    rational_from_repeating_number ⟨10, [1, 3], true, 1, 1⟩
      = rational_from_repeating_number ⟨10, [1, 3], false, 1, 1⟩ := by
  decide

/-- C5: `rational_from_terminating_number` gets the magnitude right — base
10 gives `fromTerminating(12.34) = 617/50` and a decimal length of 0 gives
denominator 1 — but the input's sign is not carried to the numerator: for
`-12.34` (and even for the integer `-5`) the returned numerator is
non-negative, because the final `rational_normalize` replaces the numerator
with a sign-clearing `number_int_divmod_abs` quotient. -/
theorem claim_C5 :
    rational_from_terminating_number ⟨10, [1, 2, 3, 4], false, 2, 0⟩
      = ⟨⟨10, [6, 1, 7], false, 0, 0⟩, ⟨10, [5, 0], false, 0, 0⟩⟩ ∧
    rational_from_terminating_number ⟨10, [5], false, 0, 0⟩
      = ⟨⟨10, [5], false, 0, 0⟩, ⟨10, [1], false, 0, 0⟩⟩ ∧
    (⟨10, [1, 2, 3, 4], true, 2, 0⟩ : Number).isNegative = true ∧
    (rational_from_terminating_number ⟨10, [1, 2, 3, 4], true, 2, 0⟩).num.isNegative
      = false ∧
    rational_from_terminating_number ⟨10, [1, 2, 3, 4], true, 2, 0⟩
      = rational_from_terminating_number ⟨10, [1, 2, 3, 4], false, 2, 0⟩ := by
  decide

end ArkMath
